import Mathlib

/-!
Verification of the dep-checker dependency pipeline.

The development embeds the two JavaScript pipeline implementations of the
repository (src/dep-checker.js and the untitled earlier module) as executable
Lean definitions over lists of characters and association lists, and proves
the behavioural properties stated in the specification: grammar filtering,
error conditions, closure expansion, idempotence, and the relation between
the in-place expansion and a reference expansion over immutable direct edges.
-/

/-! ## Character classes and string helpers -/

/-- The JavaScript whitespace class used by the regular expression \s:
space, tab, line feed, vertical tab, form feed, carriage return, and the
Unicode space characters. -/
def jsWhitespace (c : Char) : Bool :=
  c = ' ' || c = '\t' || c = '\n' || c = '\r' ||
  c.val = 0x0b || c.val = 0x0c || c.val = 0xa0 || c.val = 0x1680 ||
  (0x2000 ≤ c.val && c.val ≤ 0x200a) || c.val = 0x2028 || c.val = 0x2029 ||
  c.val = 0x202f || c.val = 0x205f || c.val = 0x3000 || c.val = 0xfeff

/-- Split a character list on line separators, mirroring
JavaScript text.split of the pattern matching an optional carriage return
followed by a line feed. -/
def splitLines : List Char → List (List Char)
  | [] => [[]]
  | '\r' :: '\n' :: rest => [] :: splitLines rest
  | '\n' :: rest => [] :: splitLines rest
  | c :: rest =>
    match splitLines rest with
    | [] => [[c]]
    | l :: ls => (c :: l) :: ls

/-- One pass of the JavaScript replace of every whitespace run by a single
space: the flag records whether the previous character was whitespace. -/
def collapseWsAux : Bool → List Char → List Char
  | _, [] => []
  | prevWs, c :: rest =>
    if jsWhitespace c then
      if prevWs then collapseWsAux true rest
      else ' ' :: collapseWsAux true rest
    else c :: collapseWsAux false rest

/-- Drop leading JavaScript whitespace, as the trim method does on the left. -/
def dropLeadWs : List Char → List Char
  | [] => []
  | c :: rest => if jsWhitespace c then dropLeadWs rest else c :: rest

/-- Drop trailing JavaScript whitespace, as the trim method does on the right. -/
def trimWsEnd (l : List Char) : List Char :=
  (dropLeadWs l.reverse).reverse

/-- The per-line normalisation of the extractor: replace each whitespace run
by one space, then trim both ends. -/
def normalizeLine (l : List Char) : List Char :=
  trimWsEnd (dropLeadWs (collapseWsAux false l))

/-- ASCII letter, the classes A-Z and a-z of the line pattern. -/
def isAsciiLetter (c : Char) : Bool :=
  ('A' ≤ c && c ≤ 'Z') || ('a' ≤ c && c ≤ 'z')

/-- ASCII digit, the class 0-9 of the line pattern. -/
def isAsciiDigit (c : Char) : Bool :=
  '0' ≤ c && c ≤ '9'

/-- First character of an identifier in the line pattern. -/
def identStartChar (c : Char) : Bool :=
  isAsciiLetter c || c = '_' || c = '$' || c = '@'

/-- Non-first character of an identifier in the line pattern. -/
def identInnerChar (c : Char) : Bool :=
  isAsciiLetter c || isAsciiDigit c || c = '@' || c = '$' || c = '_' || c = '-'

/-- Character allowed in the dependency section of the line pattern: note
that this class also contains the space character. -/
def depTailChar (c : Char) : Bool :=
  identInnerChar c || c = ' '

/-- The literal characters of the separator in the line pattern. -/
def dependsOnChars : List Char :=
  [' ', 'd', 'e', 'p', 'e', 'n', 'd', 's', ' ', 'o', 'n', ' ']

/-- Whether the pattern occurs at the start of the list. -/
def beginsWithSeq : List Char → List Char → Bool
  | [], _ => true
  | _ :: _, [] => false
  | p :: ps, c :: cs => p = c && beginsWithSeq ps cs

/-- Whether the pattern occurs anywhere in the list, the JavaScript includes
test on strings. -/
def containsSeq (pat : List Char) : List Char → Bool
  | [] => beginsWithSeq pat []
  | c :: rest => beginsWithSeq pat (c :: rest) || containsSeq pat rest

/-- Decision procedure for the anchored line pattern of the source: an
identifier, the literal separator, then a character of the identifier start
class followed by characters of the dependency tail class.  Because the
identifier classes exclude the space, the only decomposition candidate takes
the maximal identifier run, so this deterministic parse decides the
existential regular expression match. -/
def matchesDepLine (l : List Char) : Bool :=
  match l with
  | [] => false
  | c0 :: rest =>
    identStartChar c0 &&
    beginsWithSeq dependsOnChars (rest.dropWhile identInnerChar) &&
    (match (rest.dropWhile identInnerChar).drop dependsOnChars.length with
     | [] => false
     | d0 :: dr => identStartChar d0 && dr.all depTailChar)

/-- Tests a line of text to see if it is a valid definition of a library
dependency listing, the regular expression test of the source. -/
def isDepListingLine (line : List Char) : Bool :=
  matchesDepLine line

/-- Split on every single space character, keeping empty fields, mirroring
the JavaScript split on a one-space separator. -/
def splitOnSpace : List Char → List (List Char)
  | [] => [[]]
  | ' ' :: rest => [] :: splitOnSpace rest
  | c :: rest =>
    match splitOnSpace rest with
    | [] => [[c]]
    | t :: ts => (c :: t) :: ts

/-- Join fields with single spaces, the inverse of the single-space split. -/
def joinSpace : List (List Char) → List Char
  | [] => []
  | [t] => t
  | t :: ts => t ++ ' ' :: joinSpace ts

/-- First-occurrence deduplication with an accumulator of already seen
elements; spreading a JavaScript Set keeps the first occurrence of each
element in order. -/
def dedupFirstAux {α : Type} [DecidableEq α] (seen : List α) : List α → List α
  | [] => []
  | a :: l => if a ∈ seen then dedupFirstAux seen l else a :: dedupFirstAux (a :: seen) l

/-- First-occurrence deduplication, the JavaScript spread of a Set. -/
def dedupFirst {α : Type} [DecidableEq α] (l : List α) : List α :=
  dedupFirstAux [] l

/-- The substring of a line before its first space, mirroring the JavaScript
substring up to indexOf of a space, which yields the empty string when the
line has no space because indexOf returns a negative position. -/
def firstWordJs (l : List Char) : List Char :=
  if ' ' ∈ l then l.takeWhile (fun c => decide (c ≠ ' ')) else []

/-! ## Error messages and separators of the source -/

def errNoDeps : String := "Invalid input: No dependencies listed."

def errBadFormat : String := "Invalid input: Please check the dependency list formatting."

def errDuplicate : String :=
  "Invalid dependency data: There is a duplicate library dependency listing."

def errSelfDirect : String :=
  "Invalid dependency data: A library directly depends on itself."

def errSelfAlt : String := "Invalid dependency data: A library depends on itself."

def nlSep : String := "\n"

def spaceSep : String := " "

def dependsOnSep : String := " depends on "

/-! ## The dependency structure and the recursive expansion -/

/-- A dependency structure: an association list from library names to their
dependency sequences, in key insertion order, mirroring the JavaScript object
with its insertion-ordered string keys. -/
abbrev DepStruct : Type := List (String × List String)

/-- Read the entry of a key, the JavaScript indexed read on the object. -/
def lookupA : DepStruct → String → Option (List String)
  | [], _ => none
  | (k, v) :: rest, key => if k = key then some v else lookupA rest key

/-- Write the entry of a key, the JavaScript indexed assignment: an existing
key keeps its position, a new key is appended at the end. -/
def setAssoc : DepStruct → String → List String → DepStruct
  | [], k, v => [(k, v)]
  | (k0, v0) :: rest, k, v =>
    if k0 = k then (k, v) :: rest else (k0, v0) :: setAssoc rest k v

/-- All identifiers occurring in the dependency sequences of a structure,
used as the finite universe of the termination measure of the expansion. -/
def ctxIds (ctx : DepStruct) : Finset String :=
  ctx.foldr (fun p a => p.2.toFinset ∪ a) ∅

theorem lookupA_mem_ctxIds {ctx : DepStruct} {k : String} {ds : List String}
    (h : lookupA ctx k = some ds) : ∀ x ∈ ds, x ∈ ctxIds ctx := by
  induction ctx with
  | nil => simp [lookupA] at h
  | cons p rest ih =>
    rw [lookupA] at h
    by_cases hk : p.1 = k
    · simp [hk] at h
      intro x hx
      simp [ctxIds, List.foldr]
      left
      rw [h]
      exact hx
    · simp [hk] at h
      intro x hx
      simp [ctxIds, List.foldr]
      right
      have := ih h x hx
      simpa [ctxIds] using this

/-- Second component of the termination measure: zero when no pending
dependency is already in the output sequence. -/
def pristineRank (out deps : List String) : Nat :=
  if ∀ x ∈ deps, x ∉ out then 0 else 1

/-- Termination measure of the recursive expansion: identifiers of the
structure not yet in the output, then the rank, then the pending length. -/
def recMeasure (ctx : DepStruct) (out deps : List String) : Nat × Nat × Nat :=
  (((ctxIds ctx ∪ deps.toFinset) \ out.toFinset).card, pristineRank out deps, deps.length)

theorem lex3_of {a1 a2 b1 b2 c1 c2 : Nat} (h1 : a1 ≤ a2) (h2 : a1 = a2 → b1 ≤ b2)
    (h3 : a1 = a2 → b1 = b2 → c1 < c2) :
    Prod.Lex (fun x y => x < y) (Prod.Lex (fun x y => x < y) (fun x y => x < y))
      (a1, b1, c1) (a2, b2, c2) := by
  rcases lt_or_eq_of_le h1 with h | h
  · exact Prod.Lex.left _ _ h
  · subst h
    apply Prod.Lex.right
    rcases lt_or_eq_of_le (h2 rfl) with h' | h'
    · exact Prod.Lex.left _ _ h'
    · subst h'
      exact Prod.Lex.right _ (h3 rfl rfl)

theorem sdiff_subset_of {A2 A : Finset String} {out out2 : List String}
    (hA : A2 ⊆ A) (ho : ∀ x ∈ out, x ∈ out2) :
    A2 \ out2.toFinset ⊆ A \ out.toFinset := by
  intro x hx
  rw [Finset.mem_sdiff] at hx ⊢
  rw [List.mem_toFinset] at hx ⊢
  exact ⟨hA hx.1, fun hxo => hx.2 (ho x hxo)⟩

theorem sdiff_card_le {A2 A : Finset String} {out out2 : List String}
    (hA : A2 ⊆ A) (ho : ∀ x ∈ out, x ∈ out2) :
    (A2 \ out2.toFinset).card ≤ (A \ out.toFinset).card :=
  Finset.card_le_card (sdiff_subset_of hA ho)

theorem sdiff_card_lt {A2 A : Finset String} {out out2 : List String} {d : String}
    (hA : A2 ⊆ A) (ho : ∀ x ∈ out, x ∈ out2) (hdA : d ∈ A) (hdo : d ∉ out)
    (hdo2 : d ∈ out2) :
    (A2 \ out2.toFinset).card < (A \ out.toFinset).card := by
  apply Finset.card_lt_card
  rw [Finset.ssubset_iff_of_subset (sdiff_subset_of hA ho)]
  refine ⟨d, ?_, ?_⟩
  · rw [Finset.mem_sdiff, List.mem_toFinset]
    exact ⟨hdA, hdo⟩
  · rw [Finset.mem_sdiff, List.mem_toFinset]
    intro hcon
    exact hcon.2 hdo2

theorem sdiff_set_eq {A2 A : Finset String} {out out2 : List String}
    (hA : A2 ⊆ A) (ho : ∀ x ∈ out, x ∈ out2)
    (hcard : (A2 \ out2.toFinset).card = (A \ out.toFinset).card) :
    A2 \ out2.toFinset = A \ out.toFinset := by
  apply Finset.eq_of_subset_of_card_le (sdiff_subset_of hA ho)
  omega

theorem rank_le_one (out deps : List String) : pristineRank out deps ≤ 1 := by
  rw [pristineRank]
  split <;> omega

theorem rank_cons_le (out : List String) (dep : String) (rest : List String) :
    pristineRank out rest ≤ pristineRank out (dep :: rest) := by
  by_cases h : ∀ x ∈ dep :: rest, x ∉ out
  · have h' : ∀ x ∈ rest, x ∉ out := fun x hx => h x (List.mem_cons_of_mem _ hx)
    simp [pristineRank, h, h']
  · have h1 : pristineRank out (dep :: rest) = 1 := by
      rw [pristineRank, if_neg h]
    rw [h1]
    exact rank_le_one out rest

theorem rank_eq_one_of_mem {out deps : List String} {d : String}
    (hd : d ∈ deps) (hdo : d ∈ out) : pristineRank out deps = 1 := by
  rw [pristineRank, if_neg]
  intro h
  exact h d hd hdo

theorem unionA_cons_sub (ctx : DepStruct) (dep : String) (rest : List String) :
    ctxIds ctx ∪ rest.toFinset ⊆ ctxIds ctx ∪ (dep :: rest).toFinset := by
  apply Finset.union_subset_union_right
  intro x hx
  rw [List.mem_toFinset] at hx ⊢
  exact List.mem_cons_of_mem _ hx

theorem mem_unionA_of_cons (ctx : DepStruct) (dep : String) (rest : List String) :
    dep ∈ ctxIds ctx ∪ (dep :: rest).toFinset := by
  rw [Finset.mem_union, List.mem_toFinset]
  exact Or.inr (List.mem_cons_self _ _)

/-- The inner recursive helper of the closure expansion, mirroring the
function recursiveAdd of the source.  The structure being expanded is split
into the fixed context read for the dependency lookups — during the
expansion of one library only that library's own entry is ever written, and
that entry is never read through the lookup because a dependency equal to the
library is skipped first, so threading the growing output separately is
faithful to the in-place JavaScript mutation — and the growing output
sequence of the current library.  The returned sequence extends the given
output on the right, which the bundled proof records. -/
def recAdd (ctx : DepStruct) (lib : String) (out : List String) (deps : List String) :
    {o : List String // ∃ t, o = out ++ t} :=
  match deps with
  | [] => ⟨out, [], by simp⟩
  | dep :: rest =>
    if hdl : dep = lib then
      -- Ignore a cyclical dependency.
      let r := recAdd ctx lib out rest
      ⟨r.val, r.property⟩
    else
      let out1 := if dep ∈ out then out else out ++ [dep]
      have hout1 : ∃ t, out1 = out ++ t := by
        by_cases h : dep ∈ out <;> simp [out1, h]
      match hlk : lookupA ctx dep with
      | none =>
        let r := recAdd ctx lib out1 rest
        ⟨r.val, by
          obtain ⟨t1, ht1⟩ := hout1
          obtain ⟨t2, ht2⟩ := r.property
          exact ⟨t1 ++ t2, by rw [ht2, ht1, List.append_assoc]⟩⟩
      | some depDeps =>
        let depsToAdd := depDeps.filter (fun d => d ∉ out1)
        if hne : depsToAdd = [] then
          let r := recAdd ctx lib out1 rest
          ⟨r.val, by
            obtain ⟨t1, ht1⟩ := hout1
            obtain ⟨t2, ht2⟩ := r.property
            exact ⟨t1 ++ t2, by rw [ht2, ht1, List.append_assoc]⟩⟩
        else
          let r2 := recAdd ctx lib out1 depsToAdd
          let r3 := recAdd ctx lib r2.val rest
          ⟨r3.val, by
            obtain ⟨t1, ht1⟩ := hout1
            obtain ⟨t2, ht2⟩ := r2.property
            obtain ⟨t3, ht3⟩ := r3.property
            exact ⟨t1 ++ t2 ++ t3, by rw [ht3, ht2, ht1]; simp [List.append_assoc]⟩⟩
  termination_by recMeasure ctx out deps
  decreasing_by
  · simp only [recMeasure]
    apply lex3_of
    · exact sdiff_card_le (unionA_cons_sub ctx dep rest) (fun x h => h)
    · intro _
      exact rank_cons_le out dep rest
    · intro _ _
      simp
  · simp only [recMeasure]
    by_cases hmem : dep ∈ out
    · simp only [dif_pos hmem]
      apply lex3_of
      · exact sdiff_card_le (unionA_cons_sub ctx dep rest) (fun x h => h)
      · intro _
        rw [rank_eq_one_of_mem (List.mem_cons_self dep rest) hmem]
        exact rank_le_one out rest
      · intro _ _
        simp
    · simp only [dif_neg hmem]
      apply Prod.Lex.left
      exact sdiff_card_lt (unionA_cons_sub ctx dep rest) (fun x h => List.mem_append_left _ h)
        (mem_unionA_of_cons ctx dep rest) hmem (List.mem_append_right _ (List.mem_singleton.mpr rfl))
  · simp only [recMeasure]
    by_cases hmem : dep ∈ out
    · simp only [dif_pos hmem]
      apply lex3_of
      · exact sdiff_card_le (unionA_cons_sub ctx dep rest) (fun x h => h)
      · intro _
        rw [rank_eq_one_of_mem (List.mem_cons_self dep rest) hmem]
        exact rank_le_one out rest
      · intro _ _
        simp
    · simp only [dif_neg hmem]
      apply Prod.Lex.left
      exact sdiff_card_lt (unionA_cons_sub ctx dep rest) (fun x h => List.mem_append_left _ h)
        (mem_unionA_of_cons ctx dep rest) hmem (List.mem_append_right _ (List.mem_singleton.mpr rfl))
  · simp only [recMeasure]
    have hsubA : ctxIds ctx ∪
        (List.filter (fun d => decide (d ∉ if h : dep ∈ out then out else out ++ [dep])) depDeps).toFinset ⊆
        ctxIds ctx ∪ (dep :: rest).toFinset := by
      apply Finset.union_subset Finset.subset_union_left
      intro x hx
      rw [List.mem_toFinset, List.mem_filter] at hx
      exact Finset.mem_union_left _ (lookupA_mem_ctxIds hlk x hx.1)
    by_cases hmem : dep ∈ out
    · simp only [dif_pos hmem] at hsubA ⊢
      apply lex3_of
      · exact sdiff_card_le hsubA (fun x h => h)
      · intro _
        rw [rank_eq_one_of_mem (List.mem_cons_self dep rest) hmem]
        exact rank_le_one _ _
      · intro _ hr
        rw [rank_eq_one_of_mem (List.mem_cons_self dep rest) hmem] at hr
        have : pristineRank out (List.filter (fun d => decide (d ∉ out)) depDeps) = 0 := by
          rw [pristineRank, if_pos]
          intro x hx
          rw [List.mem_filter] at hx
          simpa using hx.2
        omega
    · simp only [dif_neg hmem] at hsubA ⊢
      apply Prod.Lex.left
      exact sdiff_card_lt hsubA (fun x h => List.mem_append_left _ h)
        (mem_unionA_of_cons ctx dep rest) hmem (List.mem_append_right _ (List.mem_singleton.mpr rfl))
  · simp only [recMeasure]
    have hmono : ∀ x ∈ out, x ∈ r2.val := by
      intro x hx
      obtain ⟨t1, ht1⟩ := hout1
      obtain ⟨t2, ht2⟩ := r2.property
      rw [ht2, ht1]
      exact List.mem_append_left _ (List.mem_append_left _ hx)
    apply lex3_of
    · exact sdiff_card_le (unionA_cons_sub ctx dep rest) hmono
    · intro hc
      by_cases h0 : ∀ x ∈ dep :: rest, x ∉ out
      · have hseq := sdiff_set_eq (unionA_cons_sub ctx dep rest) hmono hc
        have : ∀ x ∈ rest, x ∉ r2.val := by
          intro x hx
          have hxA : x ∈ (ctxIds ctx ∪ (dep :: rest).toFinset) \ out.toFinset := by
            rw [Finset.mem_sdiff, Finset.mem_union, List.mem_toFinset, List.mem_toFinset]
            exact ⟨Or.inr (List.mem_cons_of_mem _ hx), h0 x (List.mem_cons_of_mem _ hx)⟩
          rw [← hseq, Finset.mem_sdiff, List.mem_toFinset] at hxA
          exact hxA.2
        rw [pristineRank, if_pos this]
        omega
      · have h1 : pristineRank out (dep :: rest) = 1 := by
          rw [pristineRank, if_neg h0]
        exact le_trans (rank_le_one _ _) h1.ge
    · intro _ _
      simp

/-! ### Unfolding equations of the expansion helper -/

theorem recAdd_nil (ctx : DepStruct) (lib : String) (out : List String) :
    (recAdd ctx lib out []).val = out := by
  simp [recAdd]

theorem recAdd_cons_self (ctx : DepStruct) (lib : String) (out rest : List String) :
    (recAdd ctx lib out (lib :: rest)).val = (recAdd ctx lib out rest).val := by
  simp [recAdd]

theorem recAdd_cons_none (ctx : DepStruct) (lib : String) (out rest : List String)
    {dep : String} (hdl : ¬dep = lib) (hlk : lookupA ctx dep = none) :
    (recAdd ctx lib out (dep :: rest)).val =
      (recAdd ctx lib (if dep ∈ out then out else out ++ [dep]) rest).val := by
  conv_lhs => rw [recAdd]
  simp only [dif_neg hdl]
  split <;> rename_i heq
  · rfl
  · rw [hlk] at heq
    exact Option.noConfusion heq

theorem recAdd_cons_some_empty (ctx : DepStruct) (lib : String) (out rest : List String)
    {dep : String} {depDeps : List String} (hdl : ¬dep = lib)
    (hlk : lookupA ctx dep = some depDeps)
    (hne : depDeps.filter (fun d => d ∉ (if dep ∈ out then out else out ++ [dep])) = []) :
    (recAdd ctx lib out (dep :: rest)).val =
      (recAdd ctx lib (if dep ∈ out then out else out ++ [dep]) rest).val := by
  conv_lhs => rw [recAdd]
  simp only [dif_neg hdl]
  split <;> rename_i heq
  · rfl
  · rename_i depDeps2
    rw [hlk] at heq
    injection heq with heq
    subst heq
    rw [dif_pos hne]

theorem recAdd_cons_some (ctx : DepStruct) (lib : String) (out rest : List String)
    {dep : String} {depDeps : List String} (hdl : ¬dep = lib)
    (hlk : lookupA ctx dep = some depDeps)
    (hne : ¬depDeps.filter (fun d => d ∉ (if dep ∈ out then out else out ++ [dep])) = []) :
    (recAdd ctx lib out (dep :: rest)).val =
      (recAdd ctx lib
        (recAdd ctx lib (if dep ∈ out then out else out ++ [dep])
          (depDeps.filter (fun d => d ∉ (if dep ∈ out then out else out ++ [dep])))).val
        rest).val := by
  conv_lhs => rw [recAdd]
  simp only [dif_neg hdl]
  split <;> rename_i heq
  · rw [hlk] at heq
    exact Option.noConfusion heq
  · rename_i depDeps2
    rw [hlk] at heq
    injection heq with heq
    subst heq
    rw [dif_neg hne]

theorem recAdd_mono (ctx : DepStruct) (lib : String) (out deps : List String) :
    ∀ x ∈ out, x ∈ (recAdd ctx lib out deps).val := by
  intro x hx
  obtain ⟨t, ht⟩ := (recAdd ctx lib out deps).property
  rw [ht]
  exact List.mem_append_left _ hx

/-! ## The two pipeline implementations -/

/-- Retrieves the lines of the given text which are a dependency listing,
mirroring getDepListingsFromText of src/dep-checker.js: raise the empty-input
error when the separator never occurs, normalise each line, keep the lines
matching the pattern, and raise the formatting error when none remain. -/
def getDepListingsFromText (text : String) : Except String (List (List Char)) :=
  if containsSeq dependsOnChars text.data then
    let depListings := ((splitLines text.data).map normalizeLine).filter isDepListingLine
    if depListings.length < 1 then Except.error errBadFormat
    else Except.ok depListings
  else Except.error errNoDeps

/-- Checks the names of the primary libraries defined for duplicate listings,
mirroring validateDepListingsAreUnique of src/dep-checker.js: the first word
of each line, compared as a set against the list of words. -/
def validateDepListingsAreUnique (depList : List (List Char)) : Except String Unit :=
  let definedLibraries := depList.map (fun line => String.mk (firstWordJs line))
  if (dedupFirst definedLibraries).length ≠ definedLibraries.length then
    Except.error errDuplicate
  else Except.ok ()

/-- The traversal of createDepStructureFromDepListings: split each line on
spaces, take the first word as the library name and the deduplicated words
from position three as its dependencies, reject a library that lists itself,
and assign the entry. -/
def createDepStructureGo : DepStruct → List (List Char) → Except String DepStruct
  | st, [] => Except.ok st
  | st, line :: rest =>
    let words := splitOnSpace line
    let libraryName := String.mk (words.headD [])
    let dependencies := dedupFirst ((words.drop 3).map String.mk)
    if libraryName ∈ dependencies then Except.error errSelfDirect
    else createDepStructureGo (setAssoc st libraryName dependencies) rest

/-- Breaks down a list of dependency listings into a structured object,
mirroring createDepStructureFromDepListings of src/dep-checker.js. -/
def createDepStructureFromDepListings (depListings : List (List Char)) :
    Except String DepStruct :=
  createDepStructureGo [] depListings

/-- The per-library loop of expandDepStructure: for each key in order, run
the recursive expansion of its entry against the current structure — the
output structure is the same object as the input structure in the source, so
entries of libraries expanded earlier are read in their expanded form — and
store the expanded entry.  The initial pending list of a library is its entry
at the time its turn comes, because the JavaScript forEach fixes the range of
visited positions when iteration starts. -/
def expandGo : DepStruct → List String → DepStruct
  | st, [] => st
  | st, lib :: rest =>
    match lookupA st lib with
    | none => expandGo st rest
    | some deps => expandGo (setAssoc st lib (recAdd st lib deps deps).val) rest

/-- Generates the fully expanded dependency structure for all libraries,
mirroring expandDepStructure of src/dep-checker.js. -/
def expandDepStructure (inputDepStructure : DepStruct) : DepStruct :=
  expandGo inputDepStructure (inputDepStructure.map Prod.fst)

/-- Converts a dependency structure into the formatted multiline string,
mirroring depStructureToString of src/dep-checker.js. -/
def depStructureToString (depData : DepStruct) : String :=
  String.intercalate nlSep
    (depData.map (fun p => p.1 ++ dependsOnSep ++ String.intercalate spaceSep p.2))

/-- The full pipeline of src/dep-checker.js, mirroring processDepsInText:
extract the listings, validate uniqueness, build the structure, expand it,
and return the joined input listings with the rendered output. -/
def processDepsInText (text : String) : Except String (String × String) :=
  match getDepListingsFromText text with
  | Except.error e => Except.error e
  | Except.ok depListings =>
    match validateDepListingsAreUnique depListings with
    | Except.error e => Except.error e
    | Except.ok _ =>
      match createDepStructureFromDepListings depListings with
      | Except.error e => Except.error e
      | Except.ok inputDepStructure =>
        Except.ok (String.intercalate nlSep (depListings.map String.mk),
          depStructureToString (expandDepStructure inputDepStructure))

/-- The structure-building stage of the pipeline on its own: extraction,
uniqueness validation, then structure construction. -/
def builtStructureOfText (text : String) : Except String DepStruct :=
  match getDepListingsFromText text with
  | Except.error e => Except.error e
  | Except.ok ls =>
    match validateDepListingsAreUnique ls with
    | Except.error e => Except.error e
    | Except.ok _ => createDepStructureFromDepListings ls

/-! ## The earlier pipeline module of the repository -/

/-- Gets the names of the primary libraries, mirroring getLibsFromDepList of
the untitled module: like the validation of the main pipeline but returning
the names. -/
def getLibsFromDepList (depList : List (List Char)) : Except String (List String) :=
  let libs := depList.map (fun line => String.mk (firstWordJs line))
  if (dedupFirst libs).length ≠ libs.length then Except.error errDuplicate
  else Except.ok libs

/-- The traversal of getDepDataFromDepList: identical construction to the
main builder except that the entry is assigned before the self-dependency
check and the message differs. -/
def getDepDataGo : DepStruct → List (List Char) → Except String DepStruct
  | st, [] => Except.ok st
  | st, line :: rest =>
    let words := splitOnSpace line
    let name := String.mk (words.headD [])
    let deps := dedupFirst ((words.drop 3).map String.mk)
    let st2 := setAssoc st name deps
    if name ∈ deps then Except.error errSelfAlt
    else getDepDataGo st2 rest

/-- Breaks down a list of dependency listings, mirroring getDepDataFromDepList
of the untitled module. -/
def getDepDataFromDepList (depList : List (List Char)) : Except String DepStruct :=
  getDepDataGo [] depList

/-- The per-library loop of getFullDepGraph.  The source looks a dependency
up with an index search in the libraries array and then reads the entry of
the found name, which equals the searched dependency; restricting the context
to the pairs whose key is among the libraries models that guard.  In the
program the libraries argument is always the key list of the data, so the
lookup of a found library never misses. -/
def fullGraphGo (libs : List String) : DepStruct → List String → DepStruct
  | st, [] => st
  | st, lib :: rest =>
    match lookupA st lib with
    | none => fullGraphGo libs st rest
    | some deps =>
      fullGraphGo libs
        (setAssoc st lib
          (recAdd (st.filter (fun p => p.1 ∈ libs)) lib deps deps).val) rest

/-- Calculates the complete dependency graph, mirroring getFullDepGraph of the
untitled module; the optional libraries argument defaults to the keys. -/
def getFullDepGraph (inputDepData : DepStruct) (libraries : Option (List String)) :
    DepStruct :=
  fullGraphGo (libraries.getD (inputDepData.map Prod.fst)) inputDepData
    (inputDepData.map Prod.fst)

/-- Converts a dependency structure to its multiline rendering, mirroring
depDataToString of the untitled module. -/
def depDataToString (depData : DepStruct) : String :=
  String.intercalate nlSep
    (depData.map (fun p => p.1 ++ dependsOnSep ++ String.intercalate spaceSep p.2))

/-- Mirrors checkDependencies of the untitled module. -/
def checkDependencies (depList : List (List Char)) : Except String String :=
  match getLibsFromDepList depList with
  | Except.error e => Except.error e
  | Except.ok libs =>
    match getDepDataFromDepList depList with
    | Except.error e => Except.error e
    | Except.ok inputDepData =>
      Except.ok (depDataToString (getFullDepGraph inputDepData (some libs)))

/-- Retrieves the listing lines, mirroring getDepListFromText of the untitled
module: unlike the main pipeline this filters the raw lines with no
per-line normalisation. -/
def getDepListFromText (text : String) : Except String (List (List Char)) :=
  if containsSeq dependsOnChars text.data then
    let list := (splitLines text.data).filter isDepListingLine
    if list.length < 1 then Except.error errBadFormat
    else Except.ok list
  else Except.error errNoDeps

/-- The full pipeline of the untitled module, mirroring getFullDepDataFromText. -/
def getFullDepDataFromText (text : String) : Except String (String × String) :=
  match getDepListFromText text with
  | Except.error e => Except.error e
  | Except.ok list =>
    match checkDependencies list with
    | Except.error e => Except.error e
    | Except.ok output =>
      Except.ok (String.intercalate nlSep (list.map String.mk), output)

/-! ## Reference definitions written from the specification -/

/-- Reference expansion following the words of the specification for the
refinement claim: every dependency list is fetched from an immutable copy of
the direct-edge mapping taken before any mutation, so each library's closure
walks the original entries only. -/
def specRefExpandDepStructure (st : DepStruct) : DepStruct :=
  st.map (fun p => (p.1, (recAdd st p.1 p.2 p.2).val))

def wordDepends : List Char := ['d', 'e', 'p', 'e', 'n', 'd', 's']

def wordOn : List Char := ['o', 'n']

/-- A token satisfying the Identifier grammar of the specification: first
character a letter or one of the underscore, dollar and at signs, remaining
characters alphanumeric or at, dollar, underscore, hyphen. -/
def identTok (t : List Char) : Bool :=
  match t with
  | [] => false
  | c :: cs => identStartChar c && cs.all identInnerChar

/-- The keep condition stated by the specification for the extractor: the
normalised line splits into an identifier, the word depends, the word on,
and one or more dependency tokens that each independently satisfy the
Identifier grammar. -/
def specKeepsLine (m : List Char) : Bool :=
  match splitOnSpace m with
  | nm :: w1 :: w2 :: d1 :: ds =>
    identTok nm && decide (w1 = wordDepends) && decide (w2 = wordOn) &&
      identTok d1 && ds.all identTok
  | _ => false

/-- A relaxed dependency token: nonempty and made of identifier characters,
with no constraint on its first character. -/
def looseTok (t : List Char) : Bool :=
  !t.isEmpty && t.all identInnerChar

/-- The amended keep condition: the library name and the first dependency
token satisfy the Identifier grammar, while the following dependency tokens
only need nonempty identifier characters — they may start with a digit or a
hyphen, which the source pattern accepts. -/
def AmendedKeepsForm (m : List Char) : Prop :=
  ∃ nm d1 ds, m = joinSpace (nm :: wordDepends :: wordOn :: d1 :: ds) ∧
    identTok nm = true ∧ identTok d1 = true ∧ ∀ t ∈ ds, looseTok t = true

/-! ## Concrete inputs used by the scenarios -/

def textBasic : String := "X depends on Y R\nY depends on Z"

def textBasicOut : String := "X depends on Y R Z\nY depends on Z"

def textCycle : String := "A depends on B\nB depends on A"

def textAliasing : String :=
  "A depends on E\nB depends on y\nC depends on A B E\nE depends on F"

def textDup : String := "X depends on Y R\nX depends on Z"

def textSelf : String := "X depends on X"

def textDupAndSelf : String := "X depends on X\nX depends on Y"

def textSpaced : String := "A depends on B  C"

def textPlain : String := "A depends on B"

def lineDigitDep : String := "A depends on B 9"

/-! ## Reachability over a dependency structure -/

/-- One direct-dependency edge of a structure. -/
def EdgeD (st : DepStruct) (a b : String) : Prop :=
  ∃ ds, lookupA st a = some ds ∧ b ∈ ds

/-- Reachability through one or more direct-dependency edges. -/
inductive Reach (st : DepStruct) : String → String → Prop where
  | single {a b : String} : EdgeD st a b → Reach st a b
  | tail {a b c : String} : Reach st a b → EdgeD st b c → Reach st a c

theorem reach_trans {st : DepStruct} {a b c : String}
    (h1 : Reach st a b) (h2 : Reach st b c) : Reach st a c := by
  induction h2 with
  | single e => exact h1.tail e
  | tail _ e ih => exact ih.tail e

theorem reach_mono {st1 st2 : DepStruct}
    (hE : ∀ a b, EdgeD st1 a b → EdgeD st2 a b) :
    ∀ {a b : String}, Reach st1 a b → Reach st2 a b := by
  intro a b h
  induction h with
  | single e => exact Reach.single (hE _ _ e)
  | tail _ e ih => exact ih.tail (hE _ _ e)

theorem reach_of_edges_reach {st1 st2 : DepStruct}
    (hE : ∀ a b, EdgeD st2 a b → Reach st1 a b) :
    ∀ {a b : String}, Reach st2 a b → Reach st1 a b := by
  intro a b h
  induction h with
  | single e => exact hE _ _ e
  | tail _ e ih => exact reach_trans ih (hE _ _ e)

/-- All entries of a dependency found in the context point back into the
output, except for the library under expansion itself. -/
def ChildrenIn (ctx : DepStruct) (lib x : String) (o : List String) : Prop :=
  ∀ ds, lookupA ctx x = some ds → ∀ c ∈ ds, c = lib ∨ c ∈ o

theorem childrenIn_mono {ctx : DepStruct} {lib x : String} {o o' : List String}
    (h : ChildrenIn ctx lib x o) (hsub : ∀ y ∈ o, y ∈ o') :
    ChildrenIn ctx lib x o' := by
  intro ds hds c hc
  rcases h ds hds c hc with h' | h'
  · exact Or.inl h'
  · exact Or.inr (hsub _ h')

/-! ## Invariants of the recursive expansion -/

theorem recAdd_nodup (ctx : DepStruct) (lib : String) (out deps : List String) :
    out.Nodup → (recAdd ctx lib out deps).val.Nodup := by
  induction out, deps using recAdd.induct ctx lib with
  | case1 out => intro h; simpa [recAdd_nil] using h
  | case2 out rest ih =>
    intro h
    rw [recAdd_cons_self]
    exact ih h
  | case3 out dep rest hdl out1 hout1 hlk ih1 ih2 =>
    intro h
    rw [recAdd_cons_none ctx lib out rest hdl hlk]
    apply ih2
    by_cases hmem : dep ∈ out
    · simpa [if_pos hmem] using h
    · simp only [dite_eq_ite, if_neg hmem]
      simp [List.nodup_append, h, hmem]
  | case4 out dep rest hdl out1 hout1 depDeps hlk dta hne ih1 ih2 =>
    intro h
    rw [recAdd_cons_some_empty ctx lib out rest hdl hlk hne]
    apply ih2
    by_cases hmem : dep ∈ out
    · simpa [if_pos hmem] using h
    · simp only [dite_eq_ite, if_neg hmem]
      simp [List.nodup_append, h, hmem]
  | case5 out dep rest hdl out1 hout1 depDeps hlk dta hne r2 ih1 ih1b j1 j2 j3 ih3 ih3b =>
    intro h
    rw [recAdd_cons_some ctx lib out rest hdl hlk hne]
    apply ih3b
    apply ih1b
    by_cases hmem : dep ∈ out
    · simpa [if_pos hmem] using h
    · simp only [dite_eq_ite, if_neg hmem]
      simp [List.nodup_append, h, hmem]

theorem recAdd_not_mem (ctx : DepStruct) (lib : String) (out deps : List String) :
    lib ∉ out → lib ∉ (recAdd ctx lib out deps).val := by
  induction out, deps using recAdd.induct ctx lib with
  | case1 out => intro h; simpa [recAdd_nil] using h
  | case2 out rest ih =>
    intro h
    rw [recAdd_cons_self]
    exact ih h
  | case3 out dep rest hdl out1 hout1 hlk ih1 ih2 =>
    intro h
    rw [recAdd_cons_none ctx lib out rest hdl hlk]
    apply ih2
    by_cases hmem : dep ∈ out
    · simpa [if_pos hmem] using h
    · simp only [dite_eq_ite, if_neg hmem]
      simp [h]
      intro hcon
      exact hdl hcon.symm
  | case4 out dep rest hdl out1 hout1 depDeps hlk dta hne ih1 ih2 =>
    intro h
    rw [recAdd_cons_some_empty ctx lib out rest hdl hlk hne]
    apply ih2
    by_cases hmem : dep ∈ out
    · simpa [if_pos hmem] using h
    · simp only [dite_eq_ite, if_neg hmem]
      simp [h]
      intro hcon
      exact hdl hcon.symm
  | case5 out dep rest hdl out1 hout1 depDeps hlk dta hne r2 ih1 ih1b j1 j2 j3 ih3 ih3b =>
    intro h
    rw [recAdd_cons_some ctx lib out rest hdl hlk hne]
    apply ih3b
    apply ih1b
    by_cases hmem : dep ∈ out
    · simpa [if_pos hmem] using h
    · simp only [dite_eq_ite, if_neg hmem]
      simp [h]
      intro hcon
      exact hdl hcon.symm

theorem recAdd_sound (ctx : DepStruct) (lib : String) (out deps : List String) :
    (∀ x ∈ out, Reach ctx lib x) → (∀ d ∈ deps, d = lib ∨ Reach ctx lib d) →
    ∀ x ∈ (recAdd ctx lib out deps).val, Reach ctx lib x := by
  induction out, deps using recAdd.induct ctx lib with
  | case1 out =>
    intro hout _ x hx
    rw [recAdd_nil] at hx
    exact hout x hx
  | case2 out rest ih =>
    intro hout hdeps x hx
    rw [recAdd_cons_self] at hx
    exact ih hout (fun d hd => hdeps d (List.mem_cons_of_mem _ hd)) x hx
  | case3 out dep rest hdl out1 hout1 hlk ih1 ih2 =>
    intro hout hdeps x hx
    rw [recAdd_cons_none ctx lib out rest hdl hlk] at hx
    have hdep : Reach ctx lib dep := by
      rcases hdeps dep (List.mem_cons_self _ _) with h | h
      · exact absurd h hdl
      · exact h
    have hout' : ∀ y ∈ (if dep ∈ out then out else out ++ [dep]), Reach ctx lib y := by
      intro y hy
      by_cases hmem : dep ∈ out
      · rw [if_pos hmem] at hy
        exact hout y hy
      · rw [if_neg hmem] at hy
        rcases List.mem_append.mp hy with h | h
        · exact hout y h
        · rw [List.mem_singleton.mp h]
          exact hdep
    exact ih2 hout' (fun d hd => hdeps d (List.mem_cons_of_mem _ hd)) x hx
  | case4 out dep rest hdl out1 hout1 depDeps hlk dta hne ih1 ih2 =>
    intro hout hdeps x hx
    rw [recAdd_cons_some_empty ctx lib out rest hdl hlk hne] at hx
    have hdep : Reach ctx lib dep := by
      rcases hdeps dep (List.mem_cons_self _ _) with h | h
      · exact absurd h hdl
      · exact h
    have hout' : ∀ y ∈ (if dep ∈ out then out else out ++ [dep]), Reach ctx lib y := by
      intro y hy
      by_cases hmem : dep ∈ out
      · rw [if_pos hmem] at hy
        exact hout y hy
      · rw [if_neg hmem] at hy
        rcases List.mem_append.mp hy with h | h
        · exact hout y h
        · rw [List.mem_singleton.mp h]
          exact hdep
    exact ih2 hout' (fun d hd => hdeps d (List.mem_cons_of_mem _ hd)) x hx
  | case5 out dep rest hdl out1 hout1 depDeps hlk dta hne r2 ih1 ih1b j1 j2 j3 ih3 ih3b =>
    intro hout hdeps x hx
    rw [recAdd_cons_some ctx lib out rest hdl hlk hne] at hx
    have hdep : Reach ctx lib dep := by
      rcases hdeps dep (List.mem_cons_self _ _) with h | h
      · exact absurd h hdl
      · exact h
    have hout' : ∀ y ∈ (if dep ∈ out then out else out ++ [dep]), Reach ctx lib y := by
      intro y hy
      by_cases hmem : dep ∈ out
      · rw [if_pos hmem] at hy
        exact hout y hy
      · rw [if_neg hmem] at hy
        rcases List.mem_append.mp hy with h | h
        · exact hout y h
        · rw [List.mem_singleton.mp h]
          exact hdep
    have hfil : ∀ c ∈ depDeps.filter
        (fun d => d ∉ (if dep ∈ out then out else out ++ [dep])), c = lib ∨ Reach ctx lib c := by
      intro c hc
      rw [List.mem_filter] at hc
      exact Or.inr (hdep.tail ⟨depDeps, hlk, hc.1⟩)
    have hr2 : ∀ y ∈ (recAdd ctx lib (if dep ∈ out then out else out ++ [dep])
        (depDeps.filter (fun d => d ∉ (if dep ∈ out then out else out ++ [dep])))).val,
        Reach ctx lib y := ih1b hout' hfil
    exact ih3b hr2 (fun d hd => hdeps d (List.mem_cons_of_mem _ hd)) x hx

theorem recAdd_closed (ctx : DepStruct) (lib : String) (out deps : List String) :
    (∀ x ∈ (recAdd ctx lib out deps).val,
        x ∈ out ∨ ChildrenIn ctx lib x (recAdd ctx lib out deps).val) ∧
    (∀ d ∈ deps, d = lib ∨
        (d ∈ (recAdd ctx lib out deps).val ∧
          ChildrenIn ctx lib d (recAdd ctx lib out deps).val)) := by
  induction out, deps using recAdd.induct ctx lib with
  | case1 out =>
    constructor
    · intro x hx
      rw [recAdd_nil] at hx
      exact Or.inl hx
    · intro d hd
      exact absurd hd (List.not_mem_nil d)
  | case2 out rest ih =>
    constructor
    · intro x hx
      rw [recAdd_cons_self] at hx ⊢
      exact ih.1 x hx
    · intro d hd
      rw [recAdd_cons_self]
      rcases List.mem_cons.mp hd with rfl | hd'
      · exact Or.inl rfl
      · exact ih.2 d hd'
  | case3 out dep rest hdl out1 hout1 hlk ih1 ih2 =>
    have hdepmem : dep ∈ (if dep ∈ out then out else out ++ [dep]) := by
      by_cases hmem : dep ∈ out <;> simp [hmem]
    have hchdep : ∀ o, ChildrenIn ctx lib dep o := by
      intro o ds hds
      rw [hlk] at hds
      exact Option.noConfusion hds
    constructor
    · intro x hx
      rw [recAdd_cons_none ctx lib out rest hdl hlk] at hx ⊢
      rcases ih2.1 x hx with hx1 | hcl
      · by_cases hmem : dep ∈ out
        · simp only [dite_eq_ite, if_pos hmem] at hx1
          exact Or.inl hx1
        · simp only [dite_eq_ite, if_neg hmem] at hx1
          rcases List.mem_append.mp hx1 with h | h
          · exact Or.inl h
          · rw [List.mem_singleton.mp h]
            exact Or.inr (hchdep _)
      · exact Or.inr hcl
    · intro d hd
      rw [recAdd_cons_none ctx lib out rest hdl hlk]
      rcases List.mem_cons.mp hd with rfl | hd'
      · exact Or.inr ⟨recAdd_mono _ _ _ _ d hdepmem, hchdep _⟩
      · exact ih2.2 d hd'
  | case4 out dep rest hdl out1 hout1 depDeps hlk dta hne ih1 ih2 =>
    have hdepmem : dep ∈ (if dep ∈ out then out else out ++ [dep]) := by
      by_cases hmem : dep ∈ out <;> simp [hmem]
    have hne' : ∀ y, y ∉ depDeps.filter
        (fun d => d ∉ (if dep ∈ out then out else out ++ [dep])) := by
      intro y hy
      rw [List.eq_nil_iff_forall_not_mem] at hne
      exact hne y hy
    have hsubout1 : ∀ c ∈ depDeps, c ∈ (if dep ∈ out then out else out ++ [dep]) := by
      intro c hc
      by_contra hcon
      have hmf : c ∈ depDeps.filter
          (fun d => d ∉ (if dep ∈ out then out else out ++ [dep])) := by
        rw [List.mem_filter]
        exact ⟨hc, by simpa using hcon⟩
      exact hne' c hmf
    have hchdep : ChildrenIn ctx lib dep
        (recAdd ctx lib (if dep ∈ out then out else out ++ [dep]) rest).val := by
      intro ds hds c hc
      rw [hlk] at hds
      injection hds with hds
      subst hds
      exact Or.inr (recAdd_mono _ _ _ _ c (hsubout1 c hc))
    constructor
    · intro x hx
      rw [recAdd_cons_some_empty ctx lib out rest hdl hlk hne] at hx ⊢
      rcases ih2.1 x hx with hx1 | hcl
      · by_cases hmem : dep ∈ out
        · simp only [dite_eq_ite, if_pos hmem] at hx1
          exact Or.inl hx1
        · simp only [dite_eq_ite, if_neg hmem] at hx1
          rcases List.mem_append.mp hx1 with h | h
          · exact Or.inl h
          · rw [List.mem_singleton.mp h]
            exact Or.inr hchdep
      · exact Or.inr hcl
    · intro d hd
      rw [recAdd_cons_some_empty ctx lib out rest hdl hlk hne]
      rcases List.mem_cons.mp hd with rfl | hd'
      · exact Or.inr ⟨recAdd_mono _ _ _ _ d hdepmem, hchdep⟩
      · exact ih2.2 d hd'
  | case5 out dep rest hdl out1 hout1 depDeps hlk dta hne r2 ih1 ih1b j1 j2 j3 ih3 ih3b =>
    have hdepmem : dep ∈ (if dep ∈ out then out else out ++ [dep]) := by
      by_cases hmem : dep ∈ out <;> simp [hmem]
    have hr2mono : ∀ y ∈ (recAdd ctx lib (if dep ∈ out then out else out ++ [dep])
        (depDeps.filter (fun d => d ∉ (if dep ∈ out then out else out ++ [dep])))).val,
        y ∈ (recAdd ctx lib
          (recAdd ctx lib (if dep ∈ out then out else out ++ [dep])
            (depDeps.filter (fun d => d ∉ (if dep ∈ out then out else out ++ [dep])))).val
          rest).val := by
      intro y hy
      exact recAdd_mono _ _ _ _ y hy
    have hchdep : ChildrenIn ctx lib dep
        (recAdd ctx lib
          (recAdd ctx lib (if dep ∈ out then out else out ++ [dep])
            (depDeps.filter (fun d => d ∉ (if dep ∈ out then out else out ++ [dep])))).val
          rest).val := by
      intro ds hds c hc
      rw [hlk] at hds
      injection hds with hds
      subst hds
      by_cases hc1 : c ∈ (if dep ∈ out then out else out ++ [dep])
      · exact Or.inr (hr2mono c (recAdd_mono _ _ _ _ c hc1))
      · have hcf : c ∈ depDeps.filter
            (fun d => d ∉ (if dep ∈ out then out else out ++ [dep])) := by
          rw [List.mem_filter]
          exact ⟨hc, by simpa using hc1⟩
        rcases ih1b.2 c hcf with h | h
        · exact Or.inl h
        · exact Or.inr (hr2mono c h.1)
    constructor
    · intro x hx
      rw [recAdd_cons_some ctx lib out rest hdl hlk hne] at hx ⊢
      rcases ih3b.1 x hx with hx2 | hcl
      · rcases ih1b.1 x hx2 with hx1 | hcl2
        · by_cases hmem : dep ∈ out
          · simp only [dite_eq_ite, if_pos hmem] at hx1
            exact Or.inl hx1
          · simp only [dite_eq_ite, if_neg hmem] at hx1
            rcases List.mem_append.mp hx1 with h | h
            · exact Or.inl h
            · rw [List.mem_singleton.mp h]
              exact Or.inr hchdep
        · exact Or.inr (childrenIn_mono hcl2 hr2mono)
      · exact Or.inr hcl
    · intro d hd
      rw [recAdd_cons_some ctx lib out rest hdl hlk hne]
      rcases List.mem_cons.mp hd with rfl | hd'
      · exact Or.inr ⟨hr2mono d (recAdd_mono _ _ _ _ d hdepmem), hchdep⟩
      · exact ih3b.2 d hd'

theorem recAdd_nopush (ctx : DepStruct) (lib : String) (out deps : List String) :
    (∀ d ∈ deps, d = lib ∨ d ∈ out) → (∀ x ∈ out, ChildrenIn ctx lib x out) →
    (recAdd ctx lib out deps).val = out := by
  induction out, deps using recAdd.induct ctx lib with
  | case1 out =>
    intro _ _
    exact recAdd_nil ctx lib out
  | case2 out rest ih =>
    intro h1 h2
    rw [recAdd_cons_self]
    exact ih (fun d hd => h1 d (List.mem_cons_of_mem _ hd)) h2
  | case3 out dep rest hdl out1 hout1 hlk ih1 ih2 =>
    intro h1 h2
    have hmem : dep ∈ out := by
      rcases h1 dep (List.mem_cons_self _ _) with h | h
      · exact absurd h hdl
      · exact h
    have e1 : (if dep ∈ out then out else out ++ [dep]) = out := if_pos hmem
    rw [recAdd_cons_none ctx lib out rest hdl hlk]
    have h1d : ∀ d ∈ rest, d = lib ∨ d ∈ (if dep ∈ out then out else out ++ [dep]) := by
      rw [e1]
      exact fun d hd => h1 d (List.mem_cons_of_mem _ hd)
    have h2d : ∀ x ∈ (if dep ∈ out then out else out ++ [dep]),
        ChildrenIn ctx lib x (if dep ∈ out then out else out ++ [dep]) := by
      rw [e1]
      exact h2
    exact (ih2 h1d h2d).trans e1
  | case4 out dep rest hdl out1 hout1 depDeps hlk dta hne ih1 ih2 =>
    intro h1 h2
    have hmem : dep ∈ out := by
      rcases h1 dep (List.mem_cons_self _ _) with h | h
      · exact absurd h hdl
      · exact h
    have e1 : (if dep ∈ out then out else out ++ [dep]) = out := if_pos hmem
    rw [recAdd_cons_some_empty ctx lib out rest hdl hlk hne]
    have h1d : ∀ d ∈ rest, d = lib ∨ d ∈ (if dep ∈ out then out else out ++ [dep]) := by
      rw [e1]
      exact fun d hd => h1 d (List.mem_cons_of_mem _ hd)
    have h2d : ∀ x ∈ (if dep ∈ out then out else out ++ [dep]),
        ChildrenIn ctx lib x (if dep ∈ out then out else out ++ [dep]) := by
      rw [e1]
      exact h2
    exact (ih2 h1d h2d).trans e1
  | case5 out dep rest hdl out1 hout1 depDeps hlk dta hne r2 ih1 ih1b j1 j2 j3 ih3 ih3b =>
    intro h1 h2
    have hmem : dep ∈ out := by
      rcases h1 dep (List.mem_cons_self _ _) with h | h
      · exact absurd h hdl
      · exact h
    have e1 : (if dep ∈ out then out else out ++ [dep]) = out := if_pos hmem
    have hfil : ∀ d ∈ depDeps.filter
        (fun d => d ∉ (if dep ∈ out then out else out ++ [dep])),
        d = lib ∨ d ∈ (if dep ∈ out then out else out ++ [dep]) := by
      rw [e1]
      intro d hd
      rw [List.mem_filter] at hd
      rcases h2 dep hmem depDeps hlk d hd.1 with h | h
      · exact Or.inl h
      · exfalso
        have hd2 := hd.2
        simp only [e1] at hd2
        simp at hd2
        exact hd2 h
    have h2d : ∀ x ∈ (if dep ∈ out then out else out ++ [dep]),
        ChildrenIn ctx lib x (if dep ∈ out then out else out ++ [dep]) := by
      rw [e1]
      exact h2
    have hr2 : (recAdd ctx lib (if dep ∈ out then out else out ++ [dep])
        (depDeps.filter (fun d => d ∉ (if dep ∈ out then out else out ++ [dep])))).val = out :=
      (ih1b hfil h2d).trans e1
    rw [recAdd_cons_some ctx lib out rest hdl hlk hne]
    have h1d3 : ∀ d ∈ rest, d = lib ∨
        d ∈ (recAdd ctx lib (if dep ∈ out then out else out ++ [dep])
          (depDeps.filter (fun d => d ∉ (if dep ∈ out then out else out ++ [dep])))).val := by
      rw [hr2]
      exact fun d hd => h1 d (List.mem_cons_of_mem _ hd)
    have h2d3 : ∀ x ∈ (recAdd ctx lib (if dep ∈ out then out else out ++ [dep])
        (depDeps.filter (fun d => d ∉ (if dep ∈ out then out else out ++ [dep])))).val,
        ChildrenIn ctx lib x
          ((recAdd ctx lib (if dep ∈ out then out else out ++ [dep])
            (depDeps.filter (fun d => d ∉ (if dep ∈ out then out else out ++ [dep])))).val) := by
      rw [hr2]
      exact h2
    exact (ih3b h1d3 h2d3).trans hr2

/-! ## Properties of one full library run -/

theorem runClosed (ctx : DepStruct) (lib : String) (out0 : List String)
    (hself : lib ∉ out0) :
    ∀ x ∈ (recAdd ctx lib out0 out0).val,
      ChildrenIn ctx lib x (recAdd ctx lib out0 out0).val := by
  intro x hx
  rcases (recAdd_closed ctx lib out0 out0).1 x hx with h | h
  · rcases (recAdd_closed ctx lib out0 out0).2 x h with h' | h'
    · exact absurd (h' ▸ h) hself
    · exact h'.2
  · exact h

theorem runComplete (ctx : DepStruct) (lib : String) (out0 : List String)
    (hlk : lookupA ctx lib = some out0) (hself : lib ∉ out0) :
    ∀ y, Reach ctx lib y → y = lib ∨ y ∈ (recAdd ctx lib out0 out0).val := by
  have hcl := runClosed ctx lib out0 hself
  intro y hy
  induction hy with
  | single e =>
    rename_i b
    obtain ⟨ds, hds, hmem⟩ := e
    rw [hlk] at hds
    injection hds with hds
    subst hds
    exact Or.inr (recAdd_mono _ _ _ _ b hmem)
  | tail hab e ih =>
    rename_i a b
    obtain ⟨ds, hds, hmem⟩ := e
    rcases ih with rfl | hb
    · rw [hlk] at hds
      injection hds with hds
      subst hds
      exact Or.inr (recAdd_mono _ _ _ _ b hmem)
    · rcases hcl a hb ds hds b hmem with h | h
      · exact Or.inl h
      · exact Or.inr h

theorem runSound (ctx : DepStruct) (lib : String) (out0 : List String)
    (hlk : lookupA ctx lib = some out0) :
    ∀ x ∈ (recAdd ctx lib out0 out0).val, Reach ctx lib x :=
  recAdd_sound ctx lib out0 out0
    (fun x hx => Reach.single ⟨out0, hlk, hx⟩)
    (fun d hd => Or.inr (Reach.single ⟨out0, hlk, hd⟩))

/-! ## Association list helpers -/

theorem lookupA_setAssoc_self (st : DepStruct) (k : String) (v : List String) :
    lookupA (setAssoc st k v) k = some v := by
  induction st with
  | nil => simp [setAssoc, lookupA]
  | cons p rest ih =>
    rw [setAssoc]
    by_cases h : p.1 = k
    · rw [if_pos h, lookupA, if_pos rfl]
    · rw [if_neg h]
      rw [lookupA, if_neg h]
      exact ih

theorem lookupA_setAssoc_ne (st : DepStruct) (k k' : String) (v : List String)
    (h : k' ≠ k) : lookupA (setAssoc st k v) k' = lookupA st k' := by
  induction st with
  | nil => simp [setAssoc, lookupA, Ne.symm h]
  | cons p rest ih =>
    rw [setAssoc]
    by_cases hp : p.1 = k
    · rw [if_pos hp, lookupA, lookupA, hp]
      rw [if_neg (Ne.symm h), if_neg (Ne.symm h)]
    · rw [if_neg hp, lookupA, lookupA]
      by_cases hp' : p.1 = k' <;> simp [hp', ih]

theorem setAssoc_keys_of_mem (st : DepStruct) (k : String) (v : List String)
    (h : k ∈ st.map Prod.fst) :
    (setAssoc st k v).map Prod.fst = st.map Prod.fst := by
  induction st with
  | nil => simp at h
  | cons p rest ih =>
    rw [setAssoc]
    by_cases hp : p.1 = k
    · rw [if_pos hp]
      simp [hp]
    · rw [if_neg hp]
      simp only [List.map_cons]
      rw [ih]
      simp only [List.map_cons] at h
      rcases List.mem_cons.mp h with h' | h'
      · exact absurd h'.symm hp
      · exact h'

theorem lookupA_none_iff (st : DepStruct) (k : String) :
    lookupA st k = none ↔ k ∉ st.map Prod.fst := by
  induction st with
  | nil => simp [lookupA]
  | cons p rest ih =>
    rw [lookupA]
    by_cases hp : p.1 = k
    · simp [hp]
    · rw [if_neg hp]
      simp only [List.map_cons, List.mem_cons]
      rw [ih]
      constructor
      · intro h hc
        rcases hc with hc | hc
        · exact hp hc.symm
        · exact h hc
      · intro h
        exact fun hc => h (Or.inr hc)

theorem lookupA_mem_pairs (st : DepStruct) (k : String) (v : List String)
    (h : lookupA st k = some v) : (k, v) ∈ st := by
  induction st with
  | nil => simp [lookupA] at h
  | cons p rest ih =>
    rw [lookupA] at h
    by_cases hp : p.1 = k
    · rw [if_pos hp] at h
      injection h with h
      exact List.mem_cons.mpr (Or.inl (by rw [← hp, ← h]))
    · rw [if_neg hp] at h
      exact List.mem_cons_of_mem _ (ih h)

theorem setAssoc_id_of_lookup (st : DepStruct) (k : String) (v : List String)
    (h : lookupA st k = some v) : setAssoc st k v = st := by
  induction st with
  | nil => simp [lookupA] at h
  | cons p rest ih =>
    rw [lookupA] at h
    rw [setAssoc]
    by_cases hp : p.1 = k
    · rw [if_pos hp] at h
      injection h with h
      rw [if_pos hp, ← hp, ← h]
    · rw [if_neg hp] at h
      rw [if_neg hp, ih h]

/-! ## The master theorem of the in-place expansion -/

/-- Shape guaranteed by the structure builder: unique keys, and each entry
deduplicated and free of its own library name. -/
def WellFormedStruct (st : DepStruct) : Prop :=
  (st.map Prod.fst).Nodup ∧ ∀ p ∈ st, p.2.Nodup ∧ p.1 ∉ p.2

/-- Everything the expansion establishes for one entry: the direct sequence
is an initial segment of the expanded one, no duplicates, no self-entry,
every element is reachable, and every reachable identifier other than the
key itself is present. -/
def GoodEntry (st0 : DepStruct) (k : String) (ds out : List String) : Prop :=
  (∃ t, out = ds ++ t) ∧ out.Nodup ∧ k ∉ out ∧
  (∀ x ∈ out, Reach st0 k x) ∧ (∀ y, Reach st0 k y → y = k ∨ y ∈ out)

/-- State of one key after the expansion walk has passed it. -/
def DoneKey (st0 st : DepStruct) (k : String) : Prop :=
  (lookupA st0 k = none ∧ lookupA st k = none) ∨
  (∃ ds out, lookupA st0 k = some ds ∧ lookupA st k = some out ∧ GoodEntry st0 k ds out)

theorem expandGo_master (st0 : DepStruct) (hWF : WellFormedStruct st0) :
    ∀ (pending : List String) (st : DepStruct), pending.Nodup →
    (∀ k ∈ pending, k ∈ st0.map Prod.fst) →
    st.map Prod.fst = st0.map Prod.fst →
    (∀ k ∈ pending, lookupA st k = lookupA st0 k) →
    (∀ k, k ∉ pending → DoneKey st0 st k) →
    (expandGo st pending).map Prod.fst = st0.map Prod.fst ∧
      ∀ k, DoneKey st0 (expandGo st pending) k := by
  intro pending
  induction pending with
  | nil =>
    intro st _ _ hkeys _ hdone
    exact ⟨by rw [expandGo]; exact hkeys, fun k => by rw [expandGo]; exact hdone k (by simp)⟩
  | cons lib rest ih =>
    intro st hnd hpkeys hkeys hpend hdone
    have hlibkey : lib ∈ st0.map Prod.fst := hpkeys lib (List.mem_cons_self _ _)
    have hlk0 : ∃ ds, lookupA st0 lib = some ds := by
      cases hcase : lookupA st0 lib with
      | none => exact absurd ((lookupA_none_iff st0 lib).mp hcase) (by simp [hlibkey])
      | some ds => exact ⟨ds, rfl⟩
    obtain ⟨ds, hds0⟩ := hlk0
    have hdscur : lookupA st lib = some ds := by
      rw [hpend lib (List.mem_cons_self _ _), hds0]
    have hp0 : (lib, ds) ∈ st0 := lookupA_mem_pairs st0 lib ds hds0
    have hdsn : ds.Nodup := (hWF.2 _ hp0).1
    have hdsf : lib ∉ ds := (hWF.2 _ hp0).2
    -- edges of the current structure are sound for the original one and
    -- conversely every original edge is a current edge
    have hE1 : ∀ a b, EdgeD st0 a b → EdgeD st a b := by
      intro a b ⟨dsa, hdsa, hmem⟩
      by_cases hpa : a ∈ lib :: rest
      · exact ⟨dsa, by rw [hpend a hpa]; exact hdsa, hmem⟩
      · rcases hdone a hpa with ⟨h1, _⟩ | ⟨dsb, outb, h1, h2, hgood⟩
        · rw [h1] at hdsa
          exact Option.noConfusion hdsa
        · rw [h1] at hdsa
          injection hdsa with hdsa
          subst hdsa
          obtain ⟨t, ht⟩ := hgood.1
          exact ⟨outb, h2, by rw [ht]; exact List.mem_append_left _ hmem⟩
    have hE2 : ∀ a b, EdgeD st a b → Reach st0 a b := by
      intro a b ⟨dsa, hdsa, hmem⟩
      by_cases hpa : a ∈ lib :: rest
      · rw [hpend a hpa] at hdsa
        exact Reach.single ⟨dsa, hdsa, hmem⟩
      · rcases hdone a hpa with ⟨_, h2⟩ | ⟨dsb, outb, h1, h2, hgood⟩
        · rw [h2] at hdsa
          exact Option.noConfusion hdsa
        · rw [h2] at hdsa
          injection hdsa with hdsa
          subst hdsa
          exact hgood.2.2.2.1 b hmem
    have hR21 : ∀ y, Reach st lib y → Reach st0 lib y :=
      fun y h => reach_of_edges_reach hE2 h
    have hR12 : ∀ y, Reach st0 lib y → Reach st lib y :=
      fun y h => reach_mono hE1 h
    -- the run of this library
    have hgoodlib : GoodEntry st0 lib ds (recAdd st lib ds ds).val := by
      refine ⟨(recAdd st lib ds ds).property, recAdd_nodup st lib ds ds hdsn,
        recAdd_not_mem st lib ds ds hdsf, ?_, ?_⟩
      · intro x hx
        exact hR21 x (runSound st lib ds hdscur x hx)
      · intro y hy
        exact runComplete st lib ds hdscur hdsf y (hR12 y hy)
    -- advance the fold
    rw [expandGo, hdscur]
    have hlibst : lib ∈ st.map Prod.fst := by rw [hkeys]; exact hlibkey
    apply ih (setAssoc st lib (recAdd st lib ds ds).val)
      (List.Nodup.of_cons hnd)
      (fun k hk => hpkeys k (List.mem_cons_of_mem _ hk))
      (by rw [setAssoc_keys_of_mem st lib _ hlibst]; exact hkeys)
    · intro k hk
      have hkne : k ≠ lib := by
        intro hc
        subst hc
        exact (List.nodup_cons.mp hnd).1 hk
      rw [lookupA_setAssoc_ne st lib k _ hkne]
      exact hpend k (List.mem_cons_of_mem _ hk)
    · intro k hk
      by_cases hkl : k = lib
      · subst hkl
        exact Or.inr ⟨ds, (recAdd st k ds ds).val, hds0,
          lookupA_setAssoc_self st k _, hgoodlib⟩
      · have hknp : k ∉ lib :: rest := by
          intro hc
          rcases List.mem_cons.mp hc with hc' | hc'
          · exact hkl hc'
          · exact hk hc'
        rcases hdone k hknp with ⟨h1, h2⟩ | ⟨dsb, outb, h1, h2, hgood⟩
        · exact Or.inl ⟨h1, by rw [lookupA_setAssoc_ne st lib k _ hkl]; exact h2⟩
        · exact Or.inr ⟨dsb, outb, h1, by rw [lookupA_setAssoc_ne st lib k _ hkl]; exact h2, hgood⟩

theorem expand_master (st0 : DepStruct) (hWF : WellFormedStruct st0) :
    (expandDepStructure st0).map Prod.fst = st0.map Prod.fst ∧
      ∀ k, DoneKey st0 (expandDepStructure st0) k := by
  apply expandGo_master st0 hWF (st0.map Prod.fst) st0 hWF.1 (fun k hk => hk) rfl
    (fun k _ => rfl)
  intro k hk
  exact Or.inl ⟨(lookupA_none_iff st0 k).mpr hk, (lookupA_none_iff st0 k).mpr hk⟩

/-! ## The reference expansion over immutable edges -/

theorem lookupA_specRef (st0 st : DepStruct) :
    ∀ k ds, lookupA st k = some ds →
      lookupA (st.map (fun p => (p.1, (recAdd st0 p.1 p.2 p.2).val))) k =
        some ((recAdd st0 k ds ds).val) := by
  induction st with
  | nil => intro k ds h; simp [lookupA] at h
  | cons p rest ih =>
    intro k ds h
    rw [lookupA] at h
    simp only [List.map_cons]
    rw [lookupA]
    by_cases hp : p.1 = k
    · rw [if_pos hp] at h
      injection h with h
      subst hp
      subst h
      rw [if_pos rfl]
    · rw [if_neg hp] at h
      rw [if_neg hp]
      exact ih k ds h

theorem specRef_master (st0 : DepStruct) (hWF : WellFormedStruct st0) :
    ∀ k ds, lookupA st0 k = some ds →
      lookupA (specRefExpandDepStructure st0) k = some ((recAdd st0 k ds ds).val) ∧
        GoodEntry st0 k ds ((recAdd st0 k ds ds).val) := by
  intro k ds h
  have hp0 : (k, ds) ∈ st0 := lookupA_mem_pairs st0 k ds h
  have hdsn : ds.Nodup := (hWF.2 _ hp0).1
  have hdsf : k ∉ ds := (hWF.2 _ hp0).2
  refine ⟨lookupA_specRef st0 st0 k ds h, (recAdd st0 k ds ds).property,
    recAdd_nodup st0 k ds ds hdsn, recAdd_not_mem st0 k ds ds hdsf, ?_, ?_⟩
  · exact runSound st0 k ds h
  · exact runComplete st0 k ds h hdsf

/-! ## Well-formedness of built structures -/

theorem dedupFirstAux_nodup {α : Type} [DecidableEq α] :
    ∀ (l : List α) (seen : List α),
      (dedupFirstAux seen l).Nodup ∧ ∀ x ∈ dedupFirstAux seen l, x ∉ seen := by
  intro l
  induction l with
  | nil => intro seen; simp [dedupFirstAux]
  | cons a t ih =>
    intro seen
    rw [dedupFirstAux]
    by_cases h : a ∈ seen
    · rw [if_pos h]
      exact ih seen
    · rw [if_neg h]
      obtain ⟨ihn, ihs⟩ := ih (a :: seen)
      constructor
      · rw [List.nodup_cons]
        exact ⟨fun hc => (ihs a hc) (List.mem_cons_self _ _), ihn⟩
      · intro x hx
        rcases List.mem_cons.mp hx with rfl | hx'
        · exact h
        · exact fun hc => (ihs x hx') (List.mem_cons_of_mem _ hc)

theorem dedupFirst_nodup {α : Type} [DecidableEq α] (l : List α) :
    (dedupFirst l).Nodup :=
  (dedupFirstAux_nodup l []).1

theorem setAssoc_keys_nodup (st : DepStruct) (k : String) (v : List String)
    (h : (st.map Prod.fst).Nodup) : ((setAssoc st k v).map Prod.fst).Nodup := by
  by_cases hk : k ∈ st.map Prod.fst
  · rw [setAssoc_keys_of_mem st k v hk]
    exact h
  · induction st with
    | nil => simp [setAssoc]
    | cons p rest ih =>
      rw [setAssoc]
      by_cases hp : p.1 = k
      · exact absurd (by simp [hp]) hk
      · rw [if_neg hp]
        simp only [List.map_cons, List.nodup_cons] at h ⊢
        refine ⟨?_, ih h.2 (fun hc => hk (by simp [hc]))⟩
        intro hc
        have : ∀ x ∈ (setAssoc rest k v).map Prod.fst, x ∈ k :: rest.map Prod.fst := by
          clear hc ih h hk
          induction rest with
          | nil => simp [setAssoc]
          | cons q qrest ihq =>
            rw [setAssoc]
            by_cases hq : q.1 = k
            · rw [if_pos hq]
              intro x hx
              simp only [List.map_cons, List.mem_cons] at hx ⊢
              rcases hx with hx | hx
              · exact Or.inl hx
              · exact Or.inr (Or.inr hx)
            · rw [if_neg hq]
              intro x hx
              simp only [List.map_cons, List.mem_cons] at hx ⊢
              rcases hx with hx | hx
              · exact Or.inr (Or.inl hx)
              · rcases List.mem_cons.mp (ihq x hx) with hx2 | hx2
                · exact Or.inl hx2
                · exact Or.inr (Or.inr hx2)
        rcases List.mem_cons.mp (this p.1 hc) with hc' | hc'
        · exact hp hc'
        · exact h.1 hc'

theorem mem_setAssoc (st : DepStruct) (k : String) (v : List String) :
    ∀ p ∈ setAssoc st k v, p = (k, v) ∨ p ∈ st := by
  induction st with
  | nil => simp [setAssoc]
  | cons q rest ih =>
    rw [setAssoc]
    by_cases hq : q.1 = k
    · rw [if_pos hq]
      intro p hp
      rcases List.mem_cons.mp hp with rfl | hp'
      · exact Or.inl rfl
      · exact Or.inr (List.mem_cons_of_mem _ hp')
    · rw [if_neg hq]
      intro p hp
      rcases List.mem_cons.mp hp with rfl | hp'
      · exact Or.inr (List.mem_cons_self _ _)
      · rcases ih p hp' with h | h
        · exact Or.inl h
        · exact Or.inr (List.mem_cons_of_mem _ h)

theorem createGo_wf : ∀ (ls : List (List Char)) (st0 st : DepStruct),
    WellFormedStruct st0 → createDepStructureGo st0 ls = Except.ok st →
    WellFormedStruct st := by
  intro ls
  induction ls with
  | nil =>
    intro st0 st hwf h
    rw [createDepStructureGo] at h
    injection h with h
    exact h ▸ hwf
  | cons line rest ih =>
    intro st0 st hwf h
    rw [createDepStructureGo] at h
    by_cases hself : String.mk ((splitOnSpace line).headD []) ∈
        dedupFirst (((splitOnSpace line).drop 3).map String.mk)
    · rw [if_pos hself] at h
      exact Except.noConfusion h
    · rw [if_neg hself] at h
      apply ih _ st _ h
      constructor
      · exact setAssoc_keys_nodup st0 _ _ hwf.1
      · intro p hp
        rcases mem_setAssoc st0 _ _ p hp with rfl | hp'
        · exact ⟨dedupFirst_nodup _, hself⟩
        · exact hwf.2 p hp'

theorem create_wf (ls : List (List Char)) (st : DepStruct)
    (h : createDepStructureFromDepListings ls = Except.ok st) : WellFormedStruct st := by
  apply createGo_wf ls [] st _ h
  constructor
  · simp
  · intro p hp
    exact absurd hp (List.not_mem_nil p)

/-! ## Idempotence of expansion -/

theorem expandGo_fixed (E : DepStruct)
    (hfix : ∀ lib ds, lookupA E lib = some ds → (recAdd E lib ds ds).val = ds) :
    ∀ pending, expandGo E pending = E := by
  intro pending
  induction pending with
  | nil => rw [expandGo]
  | cons lib rest ih =>
    cases hc : lookupA E lib with
    | none =>
      simp only [expandGo, hc]
      exact ih
    | some ds =>
      simp only [expandGo, hc]
      rw [hfix lib ds hc, setAssoc_id_of_lookup E lib ds hc]
      exact ih

theorem expand_idem (st0 : DepStruct) (hWF : WellFormedStruct st0) :
    expandDepStructure (expandDepStructure st0) = expandDepStructure st0 := by
  obtain ⟨hkeys, hdone⟩ := expand_master st0 hWF
  rw [expandDepStructure]
  apply expandGo_fixed
  intro lib ds hlk
  rcases hdone lib with ⟨h1, h2⟩ | ⟨ds0, outl, h1, h2, hgood⟩
  · rw [h2] at hlk
    exact Option.noConfusion hlk
  · rw [h2] at hlk
    injection hlk with hlk
    subst hlk
    apply recAdd_nopush
    · intro d hd
      exact Or.inr hd
    · intro x hx dsx hdsx c hc
      rcases hdone x with ⟨hx1, hx2⟩ | ⟨dsx0, outx, hx1, hx2, hgoodx⟩
      · rw [hx2] at hdsx
        exact Option.noConfusion hdsx
      · rw [hx2] at hdsx
        injection hdsx with hdsx
        subst hdsx
        have hxc : Reach st0 x c := hgoodx.2.2.2.1 c hc
        have hlx : Reach st0 lib x := hgood.2.2.2.1 x hx
        rcases hgood.2.2.2.2 c (reach_trans hlx hxc) with h | h
        · exact Or.inl h
        · exact Or.inr h

/-! ## Pipeline assembly helpers -/

theorem processDepsInText_ok_of (text : String) (ls : List (List Char)) (st : DepStruct)
    (h1 : getDepListingsFromText text = Except.ok ls)
    (h2 : validateDepListingsAreUnique ls = Except.ok ())
    (h3 : createDepStructureFromDepListings ls = Except.ok st) :
    processDepsInText text =
      Except.ok (String.intercalate nlSep (ls.map String.mk),
        depStructureToString (expandDepStructure st)) := by
  simp only [processDepsInText, h1, h2, h3]

theorem processDepsInText_extract_err (text : String) (e : String)
    (h1 : getDepListingsFromText text = Except.error e) :
    processDepsInText text = Except.error e := by
  simp only [processDepsInText, h1]

theorem processDepsInText_validate_err (text : String) (ls : List (List Char)) (e : String)
    (h1 : getDepListingsFromText text = Except.ok ls)
    (h2 : validateDepListingsAreUnique ls = Except.error e) :
    processDepsInText text = Except.error e := by
  simp only [processDepsInText, h1, h2]

theorem processDepsInText_create_err (text : String) (ls : List (List Char)) (e : String)
    (h1 : getDepListingsFromText text = Except.ok ls)
    (h2 : validateDepListingsAreUnique ls = Except.ok ())
    (h3 : createDepStructureFromDepListings ls = Except.error e) :
    processDepsInText text = Except.error e := by
  simp only [processDepsInText, h1, h2, h3]

theorem builtStructureOfText_ok_iff (text : String) (st : DepStruct) :
    builtStructureOfText text = Except.ok st ↔
      ∃ ls, getDepListingsFromText text = Except.ok ls ∧
        validateDepListingsAreUnique ls = Except.ok () ∧
        createDepStructureFromDepListings ls = Except.ok st := by
  constructor
  · intro h
    rw [builtStructureOfText] at h
    cases h1 : getDepListingsFromText text with
    | error e =>
      simp only [h1] at h
      exact Except.noConfusion h
    | ok ls =>
      simp only [h1] at h
      cases h2 : validateDepListingsAreUnique ls with
      | error e =>
        simp only [h2] at h
        exact Except.noConfusion h
      | ok u =>
        cases u
        simp only [h2] at h
        exact ⟨ls, rfl, h2, h⟩
  · intro ⟨ls, h1, h2, h3⟩
    simp only [builtStructureOfText, h1, h2, h3]

/-! ## Consequences of the master theorem -/

theorem goodEntry_mem_iff {st : DepStruct} {k : String} {ds out : List String}
    (hg : GoodEntry st k ds out) : ∀ x, x ∈ out ↔ (Reach st k x ∧ x ≠ k) := by
  intro x
  constructor
  · intro hx
    refine ⟨hg.2.2.2.1 x hx, ?_⟩
    intro hc
    exact hg.2.2.1 (hc ▸ hx)
  · intro ⟨hr, hne⟩
    rcases hg.2.2.2.2 x hr with h | h
    · exact absurd h hne
    · exact h

theorem master_entry (ls : List (List Char)) (st : DepStruct)
    (hok : createDepStructureFromDepListings ls = Except.ok st) :
    ∀ k ds, lookupA st k = some ds →
      ∃ out, lookupA (expandDepStructure st) k = some out ∧ GoodEntry st k ds out := by
  intro k ds hk
  rcases (expand_master st (create_wf ls st hok)).2 k with ⟨h1, _⟩ | ⟨ds0, out, h1, h2, hg⟩
  · rw [h1] at hk
    exact Option.noConfusion hk
  · rw [h1] at hk
    injection hk with hk
    subst hk
    exact ⟨out, h2, hg⟩

theorem master_entry_rev (ls : List (List Char)) (st : DepStruct)
    (hok : createDepStructureFromDepListings ls = Except.ok st) :
    ∀ k out, lookupA (expandDepStructure st) k = some out →
      ∃ ds, lookupA st k = some ds ∧ GoodEntry st k ds out := by
  intro k out hk
  rcases (expand_master st (create_wf ls st hok)).2 k with ⟨_, h2⟩ | ⟨ds0, out0, h1, h2, hg⟩
  · rw [h2] at hk
    exact Option.noConfusion hk
  · rw [h2] at hk
    injection hk with hk
    subst hk
    exact ⟨ds0, h1, hg⟩

/-! ## Concrete names, listings and structures for the scenarios -/

def nmA : String := "A"
def nmB : String := "B"
def nmC : String := "C"
def nmE : String := "E"
def nmF : String := "F"
def nmSmallY : String := "y"
def nmX : String := "X"
def nmY : String := "Y"
def nmZ : String := "Z"
def nmR : String := "R"

def lineXYR : String := "X depends on Y R"

def lineXY : String := "X depends on Y"

def lineXZ : String := "X depends on Z"
def lineYZ : String := "Y depends on Z"
def lineAB : String := "A depends on B"
def lineBA : String := "B depends on A"

def lsBasic : List (List Char) := [lineXYR.data, lineYZ.data]

def stBasic : DepStruct := [(nmX, [nmY, nmR]), (nmY, [nmZ])]

def lsCycle : List (List Char) := [lineAB.data, lineBA.data]

def stCycle : DepStruct := [(nmA, [nmB]), (nmB, [nmA])]

def stAliasing : DepStruct :=
  [(nmA, [nmE]), (nmB, [nmSmallY]), (nmC, [nmA, nmB, nmE]), (nmE, [nmF])]

theorem built_basic : builtStructureOfText textBasic = Except.ok stBasic := rfl

theorem built_cycle : builtStructureOfText textCycle = Except.ok stCycle := rfl

theorem built_aliasing : builtStructureOfText textAliasing = Except.ok stAliasing := rfl

theorem expand_basic :
    expandDepStructure stBasic = [(nmX, [nmY, nmR, nmZ]), (nmY, [nmZ])] := by
  simp [expandDepStructure, expandGo, lookupA, setAssoc, recAdd, stBasic,
    nmX, nmY, nmZ, nmR]

theorem expand_cycle : expandDepStructure stCycle = stCycle := by
  simp [expandDepStructure, expandGo, lookupA, setAssoc, recAdd, stCycle, nmA, nmB]

theorem expand_aliasing :
    expandDepStructure stAliasing =
      [(nmA, [nmE, nmF]), (nmB, [nmSmallY]), (nmC, [nmA, nmB, nmE, nmF, nmSmallY]),
        (nmE, [nmF])] := by
  simp [expandDepStructure, expandGo, lookupA, setAssoc, recAdd, stAliasing,
    nmA, nmB, nmC, nmE, nmF, nmSmallY]

theorem specref_aliasing :
    specRefExpandDepStructure stAliasing =
      [(nmA, [nmE, nmF]), (nmB, [nmSmallY]), (nmC, [nmA, nmB, nmE, nmSmallY, nmF]),
        (nmE, [nmF])] := by
  simp [specRefExpandDepStructure, lookupA, recAdd, stAliasing,
    nmA, nmB, nmC, nmE, nmF, nmSmallY]

/-! ## Claim theorems -/

/-- C1 (counterexample): the claim that every identifier reachable from a
library appears exactly once in its output fails on the accepted two-cycle
input: A is reachable from A through B, yet A appears zero times in A's
expanded sequence. -/
theorem c1_counterexample :
    builtStructureOfText textCycle = Except.ok stCycle ∧
    Reach stCycle nmA nmA ∧
    lookupA (expandDepStructure stCycle) nmA = some [nmB] ∧
    ¬([nmB].count nmA = 1) := by
  refine ⟨rfl, ?_, ?_, ?_⟩
  · exact Reach.tail
      (Reach.single (show EdgeD stCycle nmA nmB from ⟨[nmB], by rfl, by decide⟩))
      (show EdgeD stCycle nmB nmA from ⟨[nmA], by rfl, by decide⟩)
  · rw [expand_cycle]
    rfl
  · decide

/-- C1 (amended): for every accepted input and every library of the built
structure, every identifier of the expanded sequence is reachable from the
library through direct-dependency edges, every reachable identifier other
than the library itself appears exactly once, and the library itself never
appears. -/
theorem c1_amended_reach_exactly_once (text : String) (st : DepStruct)
    (hok : builtStructureOfText text = Except.ok st) :
    ∀ lib out, lookupA (expandDepStructure st) lib = some out →
      (∀ x ∈ out, Reach st lib x) ∧
      (∀ x, Reach st lib x → x ≠ lib → out.count x = 1) ∧ lib ∉ out := by
  obtain ⟨ls, _, _, hcr⟩ := (builtStructureOfText_ok_iff text st).mp hok
  intro lib out hk
  obtain ⟨ds, hds, hg⟩ := master_entry_rev ls st hcr lib out hk
  refine ⟨hg.2.2.2.1, ?_, hg.2.2.1⟩
  intro x hx hne
  rcases hg.2.2.2.2 x hx with h | h
  · exact absurd h hne
  · exact List.count_eq_one_of_mem hg.2.1 h

/-- C1 (witness): the amended theorem applied to the basic two-line input. -/
theorem c1_amended_witness :
    builtStructureOfText textBasic = Except.ok stBasic ∧
    lookupA (expandDepStructure stBasic) nmX = some [nmY, nmR, nmZ] ∧
    ((∀ x ∈ [nmY, nmR, nmZ], Reach stBasic nmX x) ∧
      (∀ x, Reach stBasic nmX x → x ≠ nmX → ([nmY, nmR, nmZ]).count x = 1) ∧
      nmX ∉ [nmY, nmR, nmZ]) :=
  ⟨rfl, by rw [expand_basic]; rfl,
    c1_amended_reach_exactly_once textBasic stBasic rfl nmX [nmY, nmR, nmZ]
      (by rw [expand_basic]; rfl)⟩

/-- C2 (counterexample): the in-place expansion is not the expansion over an
immutable copy of the direct edges: on the accepted four-library input the
entry of C reads A's already expanded sequence and so discovers F before y,
while the reference discovers y before F. -/
theorem c2_counterexample :
    builtStructureOfText textAliasing = Except.ok stAliasing ∧
    expandDepStructure stAliasing ≠ specRefExpandDepStructure stAliasing := by
  refine ⟨rfl, ?_⟩
  rw [expand_aliasing, specref_aliasing]
  decide

/-- C2 (amended): the expansion reads each dependency's current entry of the
mutated structure — the expanded sequence when that dependency was processed
earlier — so it agrees with the immutable-copy reference expansion on the
key sequence and on the set of identifiers of every library, though not
always on their order. -/
theorem c2_amended_sets_agree (text : String) (st : DepStruct)
    (hok : builtStructureOfText text = Except.ok st) :
    (expandDepStructure st).map Prod.fst = (specRefExpandDepStructure st).map Prod.fst ∧
    ∀ lib out out2, lookupA (expandDepStructure st) lib = some out →
      lookupA (specRefExpandDepStructure st) lib = some out2 →
      ∀ x, (x ∈ out ↔ x ∈ out2) := by
  obtain ⟨ls, _, _, hcr⟩ := (builtStructureOfText_ok_iff text st).mp hok
  have hWF := create_wf ls st hcr
  constructor
  · rw [(expand_master st hWF).1]
    rw [specRefExpandDepStructure, List.map_map]
    rfl
  · intro lib out out2 hk hk2
    obtain ⟨ds, hds, hg⟩ := master_entry_rev ls st hcr lib out hk
    have hs := lookupA_specRef st st lib ds hds
    rw [specRefExpandDepStructure] at hk2
    rw [hs] at hk2
    injection hk2 with hk2
    subst hk2
    have hg2 := (specRef_master st hWF lib ds hds).2
    intro x
    rw [goodEntry_mem_iff hg x, goodEntry_mem_iff hg2 x]

/-- C2 (witness): the amended theorem applied to the four-library input, at
the library C. -/
theorem c2_amended_witness :
    builtStructureOfText textAliasing = Except.ok stAliasing ∧
    lookupA (expandDepStructure stAliasing) nmC = some [nmA, nmB, nmE, nmF, nmSmallY] ∧
    lookupA (specRefExpandDepStructure stAliasing) nmC =
      some [nmA, nmB, nmE, nmSmallY, nmF] ∧
    (∀ x, (x ∈ [nmA, nmB, nmE, nmF, nmSmallY] ↔ x ∈ [nmA, nmB, nmE, nmSmallY, nmF])) :=
  ⟨rfl, by rw [expand_aliasing]; rfl, by rw [specref_aliasing]; rfl,
    (c2_amended_sets_agree textAliasing stAliasing rfl).2 nmC
      [nmA, nmB, nmE, nmF, nmSmallY] [nmA, nmB, nmE, nmSmallY, nmF]
      (by rw [expand_aliasing]; rfl) (by rw [specref_aliasing]; rfl)⟩

/-- C4: no library's own name ever appears in its own expanded sequence, and
the two-line indirect cycle is accepted and reproduced unchanged. -/
theorem c4_no_self_dependency :
    (∀ text st, builtStructureOfText text = Except.ok st →
      ∀ lib out, lookupA (expandDepStructure st) lib = some out → lib ∉ out) ∧
    processDepsInText textCycle = Except.ok (textCycle, textCycle) := by
  constructor
  · intro text st hok lib out hk
    obtain ⟨ls, _, _, hcr⟩ := (builtStructureOfText_ok_iff text st).mp hok
    obtain ⟨ds, hds, hg⟩ := master_entry_rev ls st hcr lib out hk
    exact hg.2.2.1
  · have h := processDepsInText_ok_of textCycle lsCycle stCycle rfl rfl rfl
    rw [h, expand_cycle]
    rfl

/-- C4 (witness): the general statement applied to the two-cycle input at
the library A. -/
theorem c4_witness :
    builtStructureOfText textCycle = Except.ok stCycle ∧
    lookupA (expandDepStructure stCycle) nmA = some [nmB] ∧
    nmA ∉ [nmB] :=
  ⟨rfl, by rw [expand_cycle]; rfl,
    c4_no_self_dependency.1 textCycle stCycle rfl nmA [nmB] (by rw [expand_cycle]; rfl)⟩

/-- C5: expansion is idempotent on structures produced by the builder:
expanding the fully expanded structure changes nothing. -/
theorem c5_expand_idempotent (ls : List (List Char)) (st : DepStruct)
    (hok : createDepStructureFromDepListings ls = Except.ok st) :
    expandDepStructure (expandDepStructure st) = expandDepStructure st :=
  expand_idem st (create_wf ls st hok)

/-- C5 (witness): idempotence at the basic two-line structure. -/
theorem c5_witness :
    createDepStructureFromDepListings lsBasic = Except.ok stBasic ∧
    expandDepStructure (expandDepStructure stBasic) = expandDepStructure stBasic :=
  ⟨rfl, c5_expand_idempotent lsBasic stBasic rfl⟩

/-- C8: the pipeline renders one line per key of the expanded structure, in
key order, joined by the newline separator with no trailing newline, lines
only for defined libraries; the keys are those of the built structure in
their original order, and the basic example renders as stated. -/
theorem c8_formatter_renders_keys :
    (∀ text ls st, getDepListingsFromText text = Except.ok ls →
      validateDepListingsAreUnique ls = Except.ok () →
      createDepStructureFromDepListings ls = Except.ok st →
      processDepsInText text =
        Except.ok (String.intercalate nlSep (ls.map String.mk),
          String.intercalate nlSep ((expandDepStructure st).map
            (fun p => p.1 ++ dependsOnSep ++ String.intercalate spaceSep p.2))) ∧
      (expandDepStructure st).map Prod.fst = st.map Prod.fst) ∧
    processDepsInText textBasic = Except.ok (textBasic, textBasicOut) := by
  constructor
  · intro text ls st h1 h2 h3
    exact ⟨processDepsInText_ok_of text ls st h1 h2 h3,
      (expand_master st (create_wf ls st h3)).1⟩
  · have h := processDepsInText_ok_of textBasic lsBasic stBasic rfl rfl rfl
    rw [h, expand_basic]
    rfl

/-- C8 (witness): the general statement applied to the basic input. -/
theorem c8_witness :
    getDepListingsFromText textBasic = Except.ok lsBasic ∧
    (processDepsInText textBasic =
      Except.ok (String.intercalate nlSep (lsBasic.map String.mk),
        String.intercalate nlSep ((expandDepStructure stBasic).map
          (fun p => p.1 ++ dependsOnSep ++ String.intercalate spaceSep p.2))) ∧
      (expandDepStructure stBasic).map Prod.fst = stBasic.map Prod.fst) :=
  ⟨rfl, c8_formatter_renders_keys.1 textBasic lsBasic stBasic rfl rfl rfl⟩

/-- C10: expansion only appends: each library's deduplicated direct sequence
is an initial segment of its expanded sequence, and the key sequence of the
structure is unchanged. -/
theorem c10_expansion_append_only (ls : List (List Char)) (st : DepStruct)
    (hok : createDepStructureFromDepListings ls = Except.ok st) :
    (expandDepStructure st).map Prod.fst = st.map Prod.fst ∧
    ∀ lib ds, lookupA st lib = some ds →
      ∃ out, lookupA (expandDepStructure st) lib = some out ∧ ∃ t, out = ds ++ t := by
  refine ⟨(expand_master st (create_wf ls st hok)).1, ?_⟩
  intro lib ds hds
  obtain ⟨out, hk, hg⟩ := master_entry ls st hok lib ds hds
  exact ⟨out, hk, hg.1⟩

/-- C10 (witness): the statement applied to the basic structure at X. -/
theorem c10_witness :
    createDepStructureFromDepListings lsBasic = Except.ok stBasic ∧
    ((expandDepStructure stBasic).map Prod.fst = stBasic.map Prod.fst ∧
      ∀ lib ds, lookupA stBasic lib = some ds →
        ∃ out, lookupA (expandDepStructure stBasic) lib = some out ∧
          ∃ t, out = ds ++ t) :=
  ⟨rfl, c10_expansion_append_only lsBasic stBasic rfl⟩

/-! ## Substring search correctness -/

theorem beginsWithSeq_iff (pat : List Char) :
    ∀ l, beginsWithSeq pat l = true ↔ ∃ post, l = pat ++ post := by
  induction pat with
  | nil =>
    intro l
    simp [beginsWithSeq]
  | cons p ps ih =>
    intro l
    cases l with
    | nil =>
      simp [beginsWithSeq]
    | cons c cs =>
      rw [beginsWithSeq]
      simp only [Bool.and_eq_true, decide_eq_true_eq, ih cs, List.cons_append,
        List.cons.injEq]
      constructor
      · intro ⟨h1, post, h2⟩
        exact ⟨post, h1.symm, h2⟩
      · intro ⟨post, h1, h2⟩
        exact ⟨h1.symm, post, h2⟩

theorem containsSeq_iff (pat : List Char) :
    ∀ l, containsSeq pat l = true ↔ ∃ pre post, l = pre ++ pat ++ post := by
  intro l
  induction l with
  | nil =>
    rw [containsSeq, beginsWithSeq_iff]
    constructor
    · intro ⟨post, h⟩
      exact ⟨[], post, by simpa using h⟩
    · intro ⟨pre, post, h⟩
      have := h.symm
      simp only [List.append_assoc, List.append_eq_nil] at this
      exact ⟨post, by simp [this.1, this.2.1, this.2.2]⟩
  | cons c rest ih =>
    rw [containsSeq]
    simp only [Bool.or_eq_true, beginsWithSeq_iff, ih]
    constructor
    · intro h
      rcases h with ⟨post, h⟩ | ⟨pre, post, h⟩
      · exact ⟨[], post, by simpa using h⟩
      · exact ⟨c :: pre, post, by simp [h]⟩
    · intro ⟨pre, post, h⟩
      cases pre with
      | nil =>
        left
        exact ⟨post, by simpa using h⟩
      | cons p pre2 =>
        right
        rw [List.cons_append, List.cons_append, List.cons.injEq] at h
        exact ⟨pre2, post, h.2⟩

/-- C6: the extractor fails with the empty-input message exactly when the
literal separator substring never occurs in the raw text, fails with the
formatting message exactly when the substring occurs but no normalised line
matches the pattern, and otherwise returns the nonempty list of kept
normalised lines. -/
theorem c6_extractor_error_conditions (text : String) :
    (getDepListingsFromText text = Except.error errNoDeps ↔
      ¬∃ pre post, text.data = pre ++ dependsOnChars ++ post) ∧
    (getDepListingsFromText text = Except.error errBadFormat ↔
      ((∃ pre post, text.data = pre ++ dependsOnChars ++ post) ∧
        ((splitLines text.data).map normalizeLine).filter isDepListingLine = [])) ∧
    (∀ ls, getDepListingsFromText text = Except.ok ls ↔
      ((∃ pre post, text.data = pre ++ dependsOnChars ++ post) ∧
        ls = ((splitLines text.data).map normalizeLine).filter isDepListingLine ∧
        ls ≠ [])) := by
  by_cases hc : containsSeq dependsOnChars text.data = true
  · have hex : ∃ pre post, text.data = pre ++ dependsOnChars ++ post :=
      (containsSeq_iff dependsOnChars text.data).mp hc
    by_cases hnil : ((splitLines text.data).map normalizeLine).filter isDepListingLine = []
    · have hres : getDepListingsFromText text = Except.error errBadFormat := by
        rw [getDepListingsFromText, if_pos hc]
        simp only [hnil]
        rfl
      rw [hres]
      refine ⟨⟨?_, ?_⟩, ⟨fun _ => ⟨hex, hnil⟩, fun _ => rfl⟩, ?_⟩
      · intro h
        exfalso
        have he : errBadFormat = errNoDeps := by injection h
        exact absurd he (by decide)
      · intro h
        exact absurd hex h
      · intro ls
        constructor
        · intro h
          exact Except.noConfusion h
        · intro ⟨_, hls, hne⟩
          exact absurd (hls.trans hnil) hne
    · have hlen : ¬(((splitLines text.data).map normalizeLine).filter
          isDepListingLine).length < 1 := by
        intro h
        exact hnil (List.length_eq_zero.mp (by omega))
      have hres : getDepListingsFromText text =
          Except.ok (((splitLines text.data).map normalizeLine).filter isDepListingLine) := by
        rw [getDepListingsFromText, if_pos hc]
        simp only [if_neg hlen]
      rw [hres]
      refine ⟨⟨fun h => Except.noConfusion h, fun h => absurd hex h⟩,
        ⟨fun h => Except.noConfusion h, fun ⟨_, h⟩ => absurd h hnil⟩, ?_⟩
      intro ls
      constructor
      · intro h
        injection h with h
        exact ⟨hex, h.symm, fun hnl => hnil (h.trans hnl)⟩
      · intro ⟨_, hls, _⟩
        rw [hls]
  · have hres : getDepListingsFromText text = Except.error errNoDeps := by
      rw [getDepListingsFromText, if_neg (by simpa using hc)]
    have hnex : ¬∃ pre post, text.data = pre ++ dependsOnChars ++ post := by
      intro hex
      exact hc ((containsSeq_iff dependsOnChars text.data).mpr hex)
    rw [hres]
    refine ⟨⟨fun _ => hnex, fun _ => rfl⟩, ⟨?_, ?_⟩, ?_⟩
    · intro h
      exfalso
      have he : errNoDeps = errBadFormat := by injection h
      exact absurd he (by decide)
    · intro ⟨hex, _⟩
      exact absurd hex hnex
    · intro ls
      exact ⟨fun h => Except.noConfusion h, fun ⟨hex, _⟩ => absurd hex hnex⟩

def textNoDeps : String := "hello\nworld"

/-- C6 (witness): the characterisation applied to a text with no separator
substring shows the empty-input error and yields the absence of any
decomposition around the separator. -/
theorem c6_witness :
    ¬∃ pre post, textNoDeps.data = pre ++ dependsOnChars ++ post :=
  (c6_extractor_error_conditions textNoDeps).1.mp rfl

/-! ## Builder error characterisation -/

/-- The self-dependency condition checked by the builder on one line. -/
def selfCondLine (line : List Char) : Prop :=
  String.mk ((splitOnSpace line).headD []) ∈
    dedupFirst (((splitOnSpace line).drop 3).map String.mk)

instance (line : List Char) : Decidable (selfCondLine line) := by
  rw [selfCondLine]
  infer_instance

theorem dedupFirstAux_length {α : Type} [DecidableEq α] :
    ∀ (l seen : List α), (dedupFirstAux seen l).length ≤ l.length ∧
      ((dedupFirstAux seen l).length = l.length ↔ (l.Nodup ∧ ∀ x ∈ l, x ∉ seen)) := by
  intro l
  induction l with
  | nil =>
    intro seen
    simp [dedupFirstAux]
  | cons a t ih =>
    intro seen
    rw [dedupFirstAux]
    by_cases h : a ∈ seen
    · rw [if_pos h]
      obtain ⟨hle, _⟩ := ih seen
      refine ⟨le_trans hle (by simp), ?_⟩
      constructor
      · intro hc
        simp only [List.length_cons] at hc
        omega
      · intro ⟨_, hall⟩
        exact absurd h (hall a (List.mem_cons_self _ _))
    · rw [if_neg h]
      obtain ⟨hle, hiff⟩ := ih (a :: seen)
      simp only [List.length_cons]
      refine ⟨by omega, ?_⟩
      constructor
      · intro hc
        have heq : (dedupFirstAux (a :: seen) t).length = t.length := by omega
        obtain ⟨hnd, hall⟩ := hiff.mp heq
        refine ⟨List.nodup_cons.mpr ⟨?_, hnd⟩, ?_⟩
        · intro hat
          exact hall a hat (List.mem_cons_self _ _)
        · intro x hx
          rcases List.mem_cons.mp hx with rfl | hx'
          · exact h
          · intro hxs
            exact hall x hx' (List.mem_cons_of_mem _ hxs)
      · intro ⟨hnd, hall⟩
        have : (dedupFirstAux (a :: seen) t).length = t.length := by
          apply hiff.mpr
        
          refine ⟨(List.nodup_cons.mp hnd).2, ?_⟩
          intro x hx hxs
          rcases List.mem_cons.mp hxs with rfl | hxs'
          · exact (List.nodup_cons.mp hnd).1 hx
          · exact hall x (List.mem_cons_of_mem _ hx) hxs'
        omega

theorem dedupFirst_length_iff {α : Type} [DecidableEq α] (l : List α) :
    (dedupFirst l).length = l.length ↔ l.Nodup := by
  have := (dedupFirstAux_length l ([] : List α)).2
  simpa [dedupFirst] using this

theorem validate_ok_iff (ls : List (List Char)) :
    validateDepListingsAreUnique ls = Except.ok () ↔
      (ls.map (fun l => String.mk (firstWordJs l))).Nodup := by
  by_cases h : (ls.map (fun l => String.mk (firstWordJs l))).Nodup
  · have hlen := (dedupFirst_length_iff (ls.map (fun l => String.mk (firstWordJs l)))).mpr h
    rw [validateDepListingsAreUnique, if_neg (by simpa using hlen)]
    simp [h]
  · have hlen : (dedupFirst (ls.map (fun l => String.mk (firstWordJs l)))).length ≠
        (ls.map (fun l => String.mk (firstWordJs l))).length := by
      intro hc
      exact h ((dedupFirst_length_iff _).mp hc)
    rw [validateDepListingsAreUnique, if_pos hlen]
    simp [h]

theorem validate_err_iff (ls : List (List Char)) :
    validateDepListingsAreUnique ls = Except.error errDuplicate ↔
      ¬(ls.map (fun l => String.mk (firstWordJs l))).Nodup := by
  by_cases h : (ls.map (fun l => String.mk (firstWordJs l))).Nodup
  · have hok := (validate_ok_iff ls).mpr h
    rw [hok]
    simp [h]
  · have hlen : (dedupFirst (ls.map (fun l => String.mk (firstWordJs l)))).length ≠
        (ls.map (fun l => String.mk (firstWordJs l))).length := by
      intro hc
      exact h ((dedupFirst_length_iff _).mp hc)
    rw [validateDepListingsAreUnique, if_pos hlen]
    simp [h]

theorem createGo_self_err :
    ∀ (ls : List (List Char)) (st0 : DepStruct), (∃ line ∈ ls, selfCondLine line) →
      createDepStructureGo st0 ls = Except.error errSelfDirect := by
  intro ls
  induction ls with
  | nil =>
    intro st0 h
    simp at h
  | cons line rest ih =>
    intro st0 h
    rw [createDepStructureGo]
    by_cases hl : selfCondLine line
    · have hl' : String.mk ((splitOnSpace line).headD []) ∈
          dedupFirst (((splitOnSpace line).drop 3).map String.mk) := hl
      rw [if_pos hl']
    · have hl' : String.mk ((splitOnSpace line).headD []) ∉
          dedupFirst (((splitOnSpace line).drop 3).map String.mk) := hl
      rw [if_neg hl']
      apply ih
      rcases h with ⟨l2, hl2, hc2⟩
      rcases List.mem_cons.mp hl2 with rfl | hl2'
      · exact absurd hc2 hl
      · exact ⟨l2, hl2', hc2⟩

theorem createGo_ok :
    ∀ (ls : List (List Char)) (st0 : DepStruct), (∀ line ∈ ls, ¬selfCondLine line) →
      ∃ st, createDepStructureGo st0 ls = Except.ok st := by
  intro ls
  induction ls with
  | nil =>
    intro st0 _
    exact ⟨st0, rfl⟩
  | cons line rest ih =>
    intro st0 h
    rw [createDepStructureGo]
    have hl' : String.mk ((splitOnSpace line).headD []) ∉
        dedupFirst (((splitOnSpace line).drop 3).map String.mk) :=
      h line (List.mem_cons_self _ _)
    rw [if_neg hl']
    exact ih _ (fun l hl => h l (List.mem_cons_of_mem _ hl))

/-- C7 (counterexample): when an input both defines a library twice and has
that library depend on itself, the pipeline raises the duplicate error, not
the self-dependency error, so the claimed equivalence for
SelfDependencyError fails. -/
theorem c7_counterexample :
    (∃ ls, getDepListingsFromText textDupAndSelf = Except.ok ls ∧
      ∃ line ∈ ls, selfCondLine line) ∧
    processDepsInText textDupAndSelf = Except.error errDuplicate := by
  constructor
  · refine ⟨[(String.mk textSelf.data).data, lineXY.data], rfl, textSelf.data, ?_, ?_⟩
    · simp
    · decide
  · rfl

/-- C7 (amended): the pipeline raises the duplicate error exactly when the
extracted listings define some library twice; it raises the direct
self-dependency error exactly when the definers are unique and some
listing's deduplicated dependencies contain its own first word.  The two
quoted scenarios behave as stated. -/
theorem c7_builder_error_conditions :
    (∀ text ls, getDepListingsFromText text = Except.ok ls →
      ((processDepsInText text = Except.error errDuplicate ↔
        ¬(ls.map (fun l => String.mk (firstWordJs l))).Nodup) ∧
       (processDepsInText text = Except.error errSelfDirect ↔
        ((ls.map (fun l => String.mk (firstWordJs l))).Nodup ∧
          ∃ line ∈ ls, selfCondLine line)))) ∧
    processDepsInText textSelf = Except.error errSelfDirect ∧
    processDepsInText textDup = Except.error errDuplicate := by
  refine ⟨?_, rfl, rfl⟩
  intro text ls h1
  by_cases hnd : (ls.map (fun l => String.mk (firstWordJs l))).Nodup
  · have hval : validateDepListingsAreUnique ls = Except.ok () :=
      (validate_ok_iff ls).mpr hnd
    by_cases hex : ∃ line ∈ ls, selfCondLine line
    · have hcr : createDepStructureFromDepListings ls = Except.error errSelfDirect :=
        createGo_self_err ls [] hex
      have hres := processDepsInText_create_err text ls errSelfDirect h1 hval hcr
      rw [hres]
      constructor
      · constructor
        · intro h
          exfalso
          have he : errSelfDirect = errDuplicate := by injection h
          exact absurd he (by decide)
        · intro h
          exact absurd hnd h
      · exact ⟨fun _ => ⟨hnd, hex⟩, fun _ => rfl⟩
    · obtain ⟨st, hst⟩ := createGo_ok ls [] (by
        intro l hl hc
        exact hex ⟨l, hl, hc⟩)
      have hres := processDepsInText_ok_of text ls st h1 hval hst
      rw [hres]
      constructor
      · exact ⟨fun h => Except.noConfusion h, fun h => absurd hnd h⟩
      · exact ⟨fun h => Except.noConfusion h, fun ⟨_, h⟩ => absurd h hex⟩
  · have hval : validateDepListingsAreUnique ls = Except.error errDuplicate :=
      (validate_err_iff ls).mpr hnd
    have hres := processDepsInText_validate_err text ls errDuplicate h1 hval
    rw [hres]
    constructor
    · exact ⟨fun _ => hnd, fun _ => rfl⟩
    · constructor
      · intro h
        exfalso
        have he : errDuplicate = errSelfDirect := by injection h
        exact absurd he (by decide)
      · intro ⟨h, _⟩
        exact absurd h hnd

/-- C7 (witness): the amended characterisation applied to the duplicate
scenario input. -/
theorem c7_witness :
    getDepListingsFromText textDup = Except.ok [lineXYR.data, lineXZ.data] ∧
    (processDepsInText textDup = Except.error errDuplicate ↔
      ¬(([lineXYR.data, lineXZ.data]).map (fun l => String.mk (firstWordJs l))).Nodup) :=
  ⟨rfl, (c7_builder_error_conditions.1 textDup [lineXYR.data, lineXZ.data] rfl).1⟩

/-! ## Shape of normalised lines -/

/-- Identifier start characters are never the space. -/
theorem identStart_ne_space {c : Char} (h : identStartChar c = true) : c ≠ ' ' := by
  intro hc
  rw [hc] at h
  exact absurd h (by decide)

/-- Identifier start characters belong to the inner class. -/
theorem identStart_inner {c : Char} (h : identStartChar c = true) :
    identInnerChar c = true := by
  simp only [identStartChar, Bool.or_eq_true, decide_eq_true_eq] at h
  rcases h with ((h | h) | h) | h <;>
    simp [identInnerChar, h]

/-- Inner identifier characters are never the space. -/
theorem identInner_ne_space {c : Char} (h : identInnerChar c = true) : c ≠ ' ' := by
  intro hc
  rw [hc] at h
  exact absurd h (by decide)

/-- Inner identifier characters belong to the dependency tail class. -/
theorem identInner_depTail {c : Char} (h : identInnerChar c = true) :
    depTailChar c = true := by
  simp [depTailChar, h]

/-- Dependency tail characters are inner identifier characters or the space. -/
theorem depTail_cases {c : Char} (h : depTailChar c = true) :
    identInnerChar c = true ∨ c = ' ' := by
  simp only [depTailChar, Bool.or_eq_true, decide_eq_true_eq] at h
  exact h

/-- Two adjacent space characters never occur. -/
def NoDouble (l : List Char) : Prop :=
  ¬∃ a b, l = a ++ ' ' :: ' ' :: b

theorem noDouble_append_right (a b : List Char) (h : NoDouble (a ++ b)) : NoDouble b := by
  rintro ⟨a2, b2, rfl⟩
  exact h ⟨a ++ a2, b2, by simp⟩

theorem noDouble_reverse {l : List Char} (h : NoDouble l) : NoDouble l.reverse := by
  rintro ⟨a, b, hab⟩
  apply h
  refine ⟨b.reverse, a.reverse, ?_⟩
  have := congrArg List.reverse hab
  rw [List.reverse_reverse] at this
  rw [this]
  simp

/-- Boolean check that no two adjacent characters are both spaces. -/
def noTwoSpaces : List Char → Bool
  | [] => true
  | [_] => true
  | a :: b :: r => !(a == ' ' && b == ' ') && noTwoSpaces (b :: r)

theorem noTwoSpaces_cons (a : Char) (X : List Char) :
    noTwoSpaces (a :: X) = true ↔
      ((a = ' ' → X.head? ≠ some ' ') ∧ noTwoSpaces X = true) := by
  cases X with
  | nil => simp [noTwoSpaces]
  | cons x r =>
    simp only [noTwoSpaces, Bool.and_eq_true, Bool.not_eq_true', Bool.and_eq_false_iff,
      beq_eq_false_iff_ne, ne_eq, List.head?_cons]
    constructor
    · intro ⟨h1, h2⟩
      refine ⟨?_, h2⟩
      intro ha hx
      rcases h1 with h1 | h1
      · exact h1 ha
      · exact h1 (Option.some.inj hx)
    · intro ⟨h1, h2⟩
      refine ⟨?_, h2⟩
      by_cases ha : a = ' '
      · right
        intro hx
        exact h1 ha (by rw [hx])
      · left
        exact ha

theorem noTwoSpaces_noDouble : ∀ l, noTwoSpaces l = true → NoDouble l := by
  intro l h
  rintro ⟨a, b, rfl⟩
  induction a with
  | nil => simp [noTwoSpaces] at h
  | cons c a ih =>
    rw [List.cons_append, noTwoSpaces_cons] at h
    exact ih h.2

theorem collapse_true_head : ∀ (l : List Char) (c : Char),
    (collapseWsAux true l).head? = some c → jsWhitespace c = false := by
  intro l
  induction l with
  | nil =>
    intro c h
    simp [collapseWsAux] at h
  | cons a rest ih =>
    intro c h
    rw [collapseWsAux] at h
    by_cases hw : jsWhitespace a
    · rw [if_pos hw, if_pos rfl] at h
      exact ih c h
    · rw [if_neg hw] at h
      simp only [List.head?_cons, Option.some.injEq] at h
      rw [← h]
      exact Bool.not_eq_true _ ▸ (by simpa using hw)

theorem noTwoSpaces_collapse : ∀ (l : List Char) (b : Bool),
    noTwoSpaces (collapseWsAux b l) = true := by
  intro l
  induction l with
  | nil =>
    intro b
    simp [collapseWsAux, noTwoSpaces]
  | cons a rest ih =>
    intro b
    rw [collapseWsAux]
    by_cases hw : jsWhitespace a
    · rw [if_pos hw]
      cases b with
      | true => rw [if_pos rfl]; exact ih true
      | false =>
        rw [if_neg (by simp)]
        rw [noTwoSpaces_cons]
        refine ⟨?_, ih true⟩
        intro _ hh
        have := collapse_true_head rest ' ' hh
        exact absurd this (by decide)
    · rw [if_neg hw]
      rw [noTwoSpaces_cons]
      refine ⟨?_, ih false⟩
      intro ha
      rw [ha] at hw
      exact absurd (by decide : jsWhitespace ' ' = true) hw

theorem dropLeadWs_suffix : ∀ l : List Char, ∃ a, l = a ++ dropLeadWs l := by
  intro l
  induction l with
  | nil => exact ⟨[], rfl⟩
  | cons c rest ih =>
    rw [dropLeadWs]
    by_cases hw : jsWhitespace c
    · rw [if_pos hw]
      obtain ⟨a, ha⟩ := ih
      exact ⟨c :: a, by rw [List.cons_append, ← ha]⟩
    · rw [if_neg hw]
      exact ⟨[], rfl⟩

theorem dropLeadWs_head_not_ws : ∀ (l : List Char) (c : Char),
    (dropLeadWs l).head? = some c → jsWhitespace c = false := by
  intro l
  induction l with
  | nil =>
    intro c h
    simp [dropLeadWs] at h
  | cons a rest ih =>
    intro c h
    rw [dropLeadWs] at h
    by_cases hw : jsWhitespace a
    · rw [if_pos hw] at h
      exact ih c h
    · rw [if_neg hw] at h
      simp only [List.head?_cons, Option.some.injEq] at h
      rw [← h]
      simpa using hw

theorem normalizeLine_noDouble (l : List Char) : NoDouble (normalizeLine l) := by
  have h0 : NoDouble (collapseWsAux false l) :=
    noTwoSpaces_noDouble _ (noTwoSpaces_collapse l false)
  have h1 : NoDouble (dropLeadWs (collapseWsAux false l)) := by
    obtain ⟨a, ha⟩ := dropLeadWs_suffix (collapseWsAux false l)
    rw [ha] at h0
    exact noDouble_append_right a _ h0
  have h2 : NoDouble (dropLeadWs (collapseWsAux false l)).reverse := noDouble_reverse h1
  have h3 : NoDouble (dropLeadWs (dropLeadWs (collapseWsAux false l)).reverse) := by
    obtain ⟨a, ha⟩ := dropLeadWs_suffix (dropLeadWs (collapseWsAux false l)).reverse
    rw [ha] at h2
    exact noDouble_append_right a _ h2
  exact noDouble_reverse h3

theorem normalizeLine_getLast (l : List Char) :
    (normalizeLine l).getLast? ≠ some ' ' := by
  rw [normalizeLine, trimWsEnd, List.getLast?_reverse]
  intro h
  have := dropLeadWs_head_not_ws _ _ h
  exact absurd this (by decide)

theorem getLastq_append_right : ∀ (a b : List Char), b ≠ [] →
    (a ++ b).getLast? = b.getLast? := by
  intro a
  induction a with
  | nil => intro b _; rfl
  | cons c a ih =>
    intro b hb
    rw [List.cons_append]
    have hab : a ++ b ≠ [] := by
      intro h
      exact hb (List.append_eq_nil.mp h).2
    cases hcase : a ++ b with
    | nil => exact absurd hcase hab
    | cons x xs =>
      rw [List.getLast?_cons_cons, ← hcase]
      exact ih b hb

/-- On a nonempty list of inner-or-space characters with no leading, trailing
or doubled space, the single-space split produces nonempty tokens of inner
characters that join back to the list. -/
theorem exists_tokens : ∀ (n : Nat) (x : List Char), x.length ≤ n → x ≠ [] →
    (∀ c ∈ x, identInnerChar c = true ∨ c = ' ') →
    x.head? ≠ some ' ' → x.getLast? ≠ some ' ' → NoDouble x →
    ∃ t ts, x = joinSpace (t :: ts) ∧ t ≠ [] ∧ t.head? = x.head? ∧
      t.all identInnerChar = true ∧ ∀ u ∈ ts, u ≠ [] ∧ u.all identInnerChar = true := by
  intro n
  induction n with
  | zero =>
    intro x hlen hne _ _ _ _
    cases x with
    | nil => exact absurd rfl hne
    | cons c r => simp at hlen
  | succ n ih =>
    intro x hlen hne hmem hhead hlast hnd
    cases x with
    | nil => exact absurd rfl hne
    | cons c rest =>
      have hc : c ≠ ' ' := by
        intro h
        exact hhead (by rw [h]; rfl)
      have hcInner : identInnerChar c = true :=
        (hmem c (List.mem_cons_self _ _)).resolve_right hc
      cases rest with
      | nil =>
        refine ⟨[c], [], rfl, by simp, rfl, by simp [hcInner], by simp⟩
      | cons d r =>
        by_cases hd : d = ' '
        · subst hd
          have hr : r ≠ [] := by
            rintro rfl
            exact hlast (by rw [List.getLast?_cons_cons, List.getLast?_singleton])
          have hrhead : r.head? ≠ some ' ' := by
            intro h
            cases r with
            | nil => simp at h
            | cons e r2 =>
              simp only [List.head?_cons, Option.some.injEq] at h
              exact hnd ⟨[c], r2, by rw [h]; rfl⟩
          have hrlast : r.getLast? ≠ some ' ' := by
            have : (c :: ' ' :: r).getLast? = r.getLast? :=
              getLastq_append_right [c, ' '] r hr
            rw [← this]
            exact hlast
          have hrnd : NoDouble r := noDouble_append_right [c, ' '] r hnd
          obtain ⟨t, ts, hjoin, htne, hthead, htall, hts⟩ :=
            ih r (by simp at hlen ⊢; omega) hr
              (fun ch hch => hmem ch (by simp [hch])) hrhead hrlast hrnd
          refine ⟨[c], t :: ts, ?_, by simp, rfl, by simp [hcInner], ?_⟩
          · show c :: ' ' :: r = [c] ++ ' ' :: joinSpace (t :: ts)
            rw [← hjoin]
            rfl
          · intro u hu
            rcases List.mem_cons.mp hu with rfl | hu2
            · exact ⟨htne, htall⟩
            · exact hts u hu2
        · have hrest_ne : d :: r ≠ [] := by simp
          have hrlast : (d :: r).getLast? ≠ some ' ' := by
            rw [← List.getLast?_cons_cons (a := c)]
            exact hlast
          have hrhead : (d :: r).head? ≠ some ' ' := by
            intro h
            simp only [List.head?_cons, Option.some.injEq] at h
            exact hd h
          have hrnd : NoDouble (d :: r) := noDouble_append_right [c] _ hnd
          obtain ⟨t, ts, hjoin, htne, hthead, htall, hts⟩ :=
            ih (d :: r) (by simp at hlen ⊢; omega) hrest_ne
              (fun ch hch => hmem ch (by simp [List.mem_cons.mp hch])) hrhead hrlast hrnd
          refine ⟨c :: t, ts, ?_, by simp, rfl, by simp [hcInner, htall], hts⟩
          cases ts with
          | nil =>
            show c :: d :: r = c :: t
            rw [show joinSpace [t] = t from rfl] at hjoin
            rw [← hjoin]
          | cons u ts2 =>
            show c :: d :: r = (c :: t) ++ ' ' :: joinSpace (u :: ts2)
            rw [List.cons_append]
            have : d :: r = t ++ ' ' :: joinSpace (u :: ts2) := hjoin
            rw [← this]

theorem all_dropWhile_eq_nil {p : Char → Bool} {l : List Char}
    (h : l.all p = true) : l.dropWhile p = [] := by
  induction l with
  | nil => rfl
  | cons c r ih =>
    simp only [List.all_cons, Bool.and_eq_true] at h
    rw [List.dropWhile_cons, if_pos h.1]
    exact ih h.2

theorem dropWhile_append_all {p : Char → Bool} {a : List Char} (b : List Char)
    (ha : a.all p = true) : (a ++ b).dropWhile p = b.dropWhile p := by
  induction a with
  | nil => rfl
  | cons c r ih =>
    simp only [List.all_cons, Bool.and_eq_true] at ha
    rw [List.cons_append, List.dropWhile_cons, if_pos ha.1]
    exact ih ha.2

/-- The anchored line pattern holds exactly on lines made of an identifier,
the literal separator, and a dependency section led by an identifier start
character. -/
theorem matchesDepLine_iff (m : List Char) : matchesDepLine m = true ↔
    ∃ c0 inner d0 dr, m = (c0 :: inner) ++ dependsOnChars ++ (d0 :: dr) ∧
      identStartChar c0 = true ∧ inner.all identInnerChar = true ∧
      identStartChar d0 = true ∧ dr.all depTailChar = true := by
  constructor
  · intro h
    cases m with
    | nil => exact absurd h (by decide)
    | cons c0 rest =>
      rw [matchesDepLine, Bool.and_eq_true, Bool.and_eq_true] at h
      obtain ⟨⟨hstart, hbegin⟩, h2⟩ := h
      obtain ⟨post, hpost⟩ := (beginsWithSeq_iff dependsOnChars _).mp hbegin
      rw [hpost, List.drop_left] at h2
      split at h2
      · exact absurd h2 (by decide)
      · rename_i d0 dr
        rw [Bool.and_eq_true] at h2
        refine ⟨c0, rest.takeWhile identInnerChar, d0, dr, ?_, hstart, ?_, h2.1, h2.2⟩
        · rw [List.append_assoc, List.cons_append]
          refine congrArg (List.cons c0) ?_
          rw [← hpost, List.takeWhile_append_dropWhile]
        · rw [List.all_eq_true]
          intro c hcmem
          exact List.mem_takeWhile_imp hcmem
  · rintro ⟨c0, inner, d0, dr, rfl, hstart, hinner, hd0, hdr⟩
    have hdw : (inner ++ (dependsOnChars ++ (d0 :: dr))).dropWhile identInnerChar =
        dependsOnChars ++ (d0 :: dr) := by
      rw [dropWhile_append_all _ hinner]
      rw [show dependsOnChars ++ (d0 :: dr) =
        ' ' :: ('d' :: 'e' :: 'p' :: 'e' :: 'n' :: 'd' :: 's' :: ' ' :: 'o' :: 'n' :: ' ' :: (d0 :: dr)) from rfl]
      rw [List.dropWhile_cons, if_neg (by decide)]
    rw [List.append_assoc, List.cons_append]
    rw [matchesDepLine, Bool.and_eq_true, Bool.and_eq_true]
    refine ⟨⟨hstart, ?_⟩, ?_⟩
    · rw [hdw]
      exact (beginsWithSeq_iff _ _).mpr ⟨d0 :: dr, rfl⟩
    · rw [hdw, List.drop_left]
      rw [Bool.and_eq_true]
      exact ⟨hd0, hdr⟩

theorem joinSpace_all_depTail : ∀ ts : List (List Char),
    (∀ t ∈ ts, t.all identInnerChar = true) → (joinSpace ts).all depTailChar = true := by
  intro ts
  induction ts with
  | nil => intro _; rfl
  | cons t ts2 ih =>
    intro h
    have ht : t.all depTailChar = true := by
      rw [List.all_eq_true]
      intro c hcmem
      have := List.all_eq_true.mp (h t (List.mem_cons_self _ _)) c hcmem
      exact identInner_depTail this
    cases ts2 with
    | nil => exact ht
    | cons u ts3 =>
      show (t ++ ' ' :: joinSpace (u :: ts3)).all depTailChar = true
      rw [List.all_append, Bool.and_eq_true]
      refine ⟨ht, ?_⟩
      rw [List.all_cons, Bool.and_eq_true]
      exact ⟨by decide, ih (fun v hv => h v (List.mem_cons_of_mem _ hv))⟩

theorem joinSpace_singleton (x : List Char) : joinSpace [x] = x := rfl

theorem joinSpace_cons_cons (x u : List Char) (r : List (List Char)) :
    joinSpace (x :: u :: r) = x ++ ' ' :: joinSpace (u :: r) := rfl

theorem joinSpace_sep (nm x : List Char) (rest : List (List Char)) :
    joinSpace (nm :: wordDepends :: wordOn :: x :: rest) =
      nm ++ dependsOnChars ++ joinSpace (x :: rest) := by
  cases rest with
  | nil =>
    show nm ++ ' ' :: (wordDepends ++ ' ' :: (wordOn ++ ' ' :: x)) = _
    simp [dependsOnChars, wordDepends, wordOn, joinSpace_singleton]
  | cons u r =>
    show nm ++ ' ' :: (wordDepends ++ ' ' :: (wordOn ++ ' ' :: (x ++ ' ' :: joinSpace (u :: r)))) = _
    simp [dependsOnChars, wordDepends, wordOn, joinSpace_cons_cons]

theorem amended_imp_matches (m : List Char) (h : AmendedKeepsForm m) :
    matchesDepLine m = true := by
  obtain ⟨nm, d1, ds, rfl, hnm, hd1, hds⟩ := h
  cases nm with
  | nil => exact absurd hnm (by decide)
  | cons c0 inner =>
    rw [identTok, Bool.and_eq_true] at hnm
    cases d1 with
    | nil => exact absurd hd1 (by decide)
    | cons d0 d1r =>
      rw [identTok, Bool.and_eq_true] at hd1
      have hd1all : d1r.all depTailChar = true := by
        rw [List.all_eq_true]
        intro c hcmem
        exact identInner_depTail (List.all_eq_true.mp hd1.2 c hcmem)
      have hx : ∃ dr, joinSpace ((d0 :: d1r) :: ds) = d0 :: dr ∧
          dr.all depTailChar = true := by
        cases ds with
        | nil => exact ⟨d1r, rfl, hd1all⟩
        | cons e ds2 =>
          refine ⟨d1r ++ ' ' :: joinSpace (e :: ds2), rfl, ?_⟩
          rw [List.all_append, Bool.and_eq_true]
          refine ⟨hd1all, ?_⟩
          rw [List.all_cons, Bool.and_eq_true]
          refine ⟨by decide, joinSpace_all_depTail _ ?_⟩
          intro t ht
          have := hds t ht
          rw [looseTok, Bool.and_eq_true] at this
          exact this.2
      obtain ⟨dr, hdrEq, hdrAll⟩ := hx
      rw [matchesDepLine_iff]
      refine ⟨c0, inner, d0, dr, ?_, hnm.1, hnm.2, hd1.1, hdrAll⟩
      rw [joinSpace_sep, hdrEq]

theorem matches_imp_amended (m : List Char) (hnd : NoDouble m)
    (hlast : m.getLast? ≠ some ' ') (h : matchesDepLine m = true) :
    AmendedKeepsForm m := by
  obtain ⟨c0, inner, d0, dr, hm, hstart, hinner, hd0, hdr⟩ := (matchesDepLine_iff m).mp h
  have hchars : ∀ c ∈ d0 :: dr, identInnerChar c = true ∨ c = ' ' := by
    intro c hcmem
    rcases List.mem_cons.mp hcmem with rfl | hcmem2
    · exact Or.inl (identStart_inner hd0)
    · exact depTail_cases (List.all_eq_true.mp hdr c hcmem2)
  have hxlast : (d0 :: dr).getLast? ≠ some ' ' := by
    rw [hm, getLastq_append_right _ _ (by simp)] at hlast
    exact hlast
  have hxnd : NoDouble (d0 :: dr) := by
    rw [hm] at hnd
    exact noDouble_append_right _ _ hnd
  have hxhead : (d0 :: dr).head? ≠ some ' ' := by
    intro hq
    simp only [List.head?_cons, Option.some.injEq] at hq
    exact identStart_ne_space hd0 hq
  obtain ⟨t, ts, hjoin, htne, hthead, htall, hts⟩ :=
    exists_tokens (d0 :: dr).length (d0 :: dr) le_rfl (by simp) hchars hxhead hxlast hxnd
  refine ⟨c0 :: inner, t, ts, ?_, ?_, ?_, ?_⟩
  · rw [joinSpace_sep, ← hjoin]
    exact hm
  · rw [identTok, Bool.and_eq_true]
    exact ⟨hstart, hinner⟩
  · cases t with
    | nil => exact absurd rfl htne
    | cons e t2 =>
      simp only [List.head?_cons, Option.some.injEq] at hthead
      rw [identTok, Bool.and_eq_true]
      rw [List.all_cons, Bool.and_eq_true] at htall
      exact ⟨hthead ▸ hd0, htall.2⟩
  · intro u hu
    obtain ⟨hune, huall⟩ := hts u hu
    rw [looseTok, Bool.and_eq_true]
    refine ⟨?_, huall⟩
    simpa using hune

/-- C3 (counterexample): the normalised line of the text with a digit-led
dependency token is kept by the source matcher although it does not have
the form claimed by the specification, whose Identifier grammar demands a
letter, underscore, dollar or at sign as first character of every token. -/
theorem c3_counterexample :
    isDepListingLine (normalizeLine lineDigitDep.data) = true ∧
      specKeepsLine (normalizeLine lineDigitDep.data) = false := by
  decide

/-- C3 (amended): after collapsing whitespace runs and trimming, the
extractor keeps a line exactly when it splits on single spaces into a
library name satisfying the Identifier grammar, the literal words of the
separator, and one or more dependency tokens of which the first satisfies
the Identifier grammar while the rest are merely nonempty strings of
identifier characters, possibly starting with a digit or hyphen. -/
theorem c3_extractor_keep_condition (l : List Char) :
    isDepListingLine (normalizeLine l) = true ↔ AmendedKeepsForm (normalizeLine l) := by
  constructor
  · intro h
    exact matches_imp_amended _ (normalizeLine_noDouble l) (normalizeLine_getLast l) h
  · intro h
    exact amended_imp_matches _ h

/-- C3 (witness): the amended characterisation instantiated on the concrete
kept line with a digit-led dependency token. -/
theorem c3_witness : AmendedKeepsForm (normalizeLine lineDigitDep.data) :=
  (c3_extractor_keep_condition lineDigitDep.data).mp (by decide)

/-! ## Relating the two pipeline modules -/

theorem checkDependencies_ok_of (ls : List (List Char)) (libs : List String)
    (st : DepStruct) (h2 : getLibsFromDepList ls = Except.ok libs)
    (h3 : getDepDataFromDepList ls = Except.ok st) :
    checkDependencies ls = Except.ok (depDataToString (getFullDepGraph st (some libs))) := by
  simp only [checkDependencies, h2, h3]

theorem checkDependencies_libs_err (ls : List (List Char)) (e : String)
    (h2 : getLibsFromDepList ls = Except.error e) :
    checkDependencies ls = Except.error e := by
  simp only [checkDependencies, h2]

theorem checkDependencies_build_err (ls : List (List Char)) (libs : List String) (e : String)
    (h2 : getLibsFromDepList ls = Except.ok libs)
    (h3 : getDepDataFromDepList ls = Except.error e) :
    checkDependencies ls = Except.error e := by
  simp only [checkDependencies, h2, h3]

theorem getFullDepDataFromText_ok_of (text : String) (ls : List (List Char)) (out : String)
    (h1 : getDepListFromText text = Except.ok ls)
    (h2 : checkDependencies ls = Except.ok out) :
    getFullDepDataFromText text =
      Except.ok (String.intercalate nlSep (ls.map String.mk), out) := by
  simp only [getFullDepDataFromText, h1, h2]

theorem getFullDepDataFromText_extract_err (text : String) (e : String)
    (h1 : getDepListFromText text = Except.error e) :
    getFullDepDataFromText text = Except.error e := by
  simp only [getFullDepDataFromText, h1]

theorem getFullDepDataFromText_check_err (text : String) (ls : List (List Char)) (e : String)
    (h1 : getDepListFromText text = Except.ok ls)
    (h2 : checkDependencies ls = Except.error e) :
    getFullDepDataFromText text = Except.error e := by
  simp only [getFullDepDataFromText, h1, h2]

theorem mapNormId (l : List (List Char)) (h : ∀ x ∈ l, normalizeLine x = x) :
    l.map normalizeLine = l := by
  induction l with
  | nil => rfl
  | cons a t ih =>
    rw [List.map_cons, h a (List.mem_cons_self _ _), ih (fun x hx => h x (List.mem_cons_of_mem _ hx))]

theorem depLists_eq_of_norm (text : String)
    (hnorm : ∀ l ∈ splitLines text.data, normalizeLine l = l) :
    getDepListFromText text = getDepListingsFromText text := by
  rw [getDepListingsFromText, getDepListFromText, mapNormId _ hnorm]

theorem splitOnSpace_ne_nil : ∀ l : List Char, splitOnSpace l ≠ [] := by
  intro l
  induction l with
  | nil => simp [splitOnSpace]
  | cons c rest ih =>
    by_cases hc : c = ' '
    · subst hc
      rw [show splitOnSpace (' ' :: rest) = [] :: splitOnSpace rest from rfl]
      simp
    · cases hr : splitOnSpace rest with
      | nil => exact absurd hr ih
      | cons t ts => simp [splitOnSpace, hc, hr]

theorem splitOnSpace_headD : ∀ l : List Char,
    (splitOnSpace l).headD [] = l.takeWhile (fun c => decide (c ≠ ' ')) := by
  intro l
  induction l with
  | nil => simp [splitOnSpace]
  | cons c rest ih =>
    by_cases hc : c = ' '
    · subst hc
      rw [show splitOnSpace (' ' :: rest) = [] :: splitOnSpace rest from rfl]
      simp [List.takeWhile_cons]
    · cases hr : splitOnSpace rest with
      | nil => exact absurd hr (splitOnSpace_ne_nil rest)
      | cons t ts =>
        rw [hr] at ih
        simp only [List.headD_cons] at ih
        simp [splitOnSpace, hc, hr, List.takeWhile_cons, ih]

theorem firstWord_eq_headD {l : List Char} (h : ' ' ∈ l) :
    firstWordJs l = (splitOnSpace l).headD [] := by
  rw [firstWordJs, if_pos h, splitOnSpace_headD]

theorem matched_has_space {m : List Char} (h : isDepListingLine m = true) : ' ' ∈ m := by
  obtain ⟨c0, inner, d0, dr, rfl, _, _, _, _⟩ := (matchesDepLine_iff m).mp h
  rw [List.append_assoc]
  refine List.mem_append.mpr (Or.inr ?_)
  refine List.mem_append.mpr (Or.inl ?_)
  rw [dependsOnChars]
  exact List.mem_cons_self _ _

theorem getDepListings_members (text : String) (ls : List (List Char))
    (h : getDepListingsFromText text = Except.ok ls) :
    ∀ l ∈ ls, isDepListingLine l = true := by
  rw [getDepListingsFromText] at h
  by_cases hc : containsSeq dependsOnChars text.data = true
  · rw [if_pos hc] at h
    by_cases hlen : (((splitLines text.data).map normalizeLine).filter isDepListingLine).length < 1
    · rw [if_pos hlen] at h
      exact Except.noConfusion h
    · rw [if_neg hlen] at h
      injection h with h
      intro l hl
      rw [← h] at hl
      exact (List.mem_filter.mp hl).2
  · rw [if_neg hc] at h
    exact Except.noConfusion h

theorem createGo_eq_depDataGo : ∀ (ls : List (List Char)) (st : DepStruct),
    (∃ st2, createDepStructureGo st ls = Except.ok st2 ∧
      getDepDataGo st ls = Except.ok st2) ∨
    (createDepStructureGo st ls = Except.error errSelfDirect ∧
      getDepDataGo st ls = Except.error errSelfAlt) := by
  intro ls
  induction ls with
  | nil =>
    intro st
    exact Or.inl ⟨st, rfl, rfl⟩
  | cons line rest ih =>
    intro st
    rw [createDepStructureGo, getDepDataGo]
    by_cases hl : String.mk ((splitOnSpace line).headD []) ∈
        dedupFirst (((splitOnSpace line).drop 3).map String.mk)
    · rw [if_pos hl, if_pos hl]
      exact Or.inr ⟨rfl, rfl⟩
    · rw [if_neg hl, if_neg hl]
      exact ih _

theorem createGo_keys (P : String → Prop) :
    ∀ (ls : List (List Char)) (st0 st : DepStruct),
      createDepStructureGo st0 ls = Except.ok st →
      (∀ p ∈ st0, P p.1) →
      (∀ l ∈ ls, P (String.mk ((splitOnSpace l).headD []))) →
      ∀ p ∈ st, P p.1 := by
  intro ls
  induction ls with
  | nil =>
    intro st0 st h h0 _
    injection h with h
    subst h
    exact h0
  | cons line rest ih =>
    intro st0 st h h0 hls
    rw [createDepStructureGo] at h
    by_cases hl : String.mk ((splitOnSpace line).headD []) ∈
        dedupFirst (((splitOnSpace line).drop 3).map String.mk)
    · rw [if_pos hl] at h
      exact Except.noConfusion h
    · rw [if_neg hl] at h
      refine ih _ st h ?_ (fun l hl2 => hls l (List.mem_cons_of_mem _ hl2))
      intro p hp
      rcases mem_setAssoc _ _ _ p hp with rfl | hp2
      · exact hls line (List.mem_cons_self _ _)
      · exact h0 p hp2

theorem fullGraphGo_eq_expandGo (libs : List String) :
    ∀ (order : List String) (st : DepStruct), (∀ p ∈ st, p.1 ∈ libs) →
      fullGraphGo libs st order = expandGo st order := by
  intro order
  induction order with
  | nil => intro st _; rfl
  | cons lib rest ih =>
    intro st hst
    rw [fullGraphGo, expandGo]
    cases hlk : lookupA st lib with
    | none => exact ih st hst
    | some deps =>
      have hfilter : st.filter (fun p => p.1 ∈ libs) = st :=
        List.filter_eq_self.mpr (fun a ha => decide_eq_true (hst a ha))
      rw [hfilter]
      apply ih
      intro p hp
      rcases mem_setAssoc _ _ _ p hp with rfl | hp2
      · exact hst (lib, deps) (lookupA_mem_pairs st lib deps hlk)
      · exact hst p hp2

theorem fullGraph_eq_expand (st : DepStruct) (libs : List String)
    (h : ∀ p ∈ st, p.1 ∈ libs) :
    getFullDepGraph st (some libs) = expandDepStructure st := by
  rw [getFullDepGraph, expandDepStructure]
  exact fullGraphGo_eq_expandGo libs (st.map Prod.fst) st h

theorem getLibs_ok_of_nodup (ls : List (List Char))
    (hnd : (ls.map (fun l => String.mk (firstWordJs l))).Nodup) :
    getLibsFromDepList ls =
      Except.ok (ls.map (fun l => String.mk (firstWordJs l))) := by
  have hlen := (dedupFirst_length_iff (ls.map (fun l => String.mk (firstWordJs l)))).mpr hnd
  rw [getLibsFromDepList, if_neg (by simpa using hlen)]

theorem getLibs_err_of_dup (ls : List (List Char))
    (hnd : ¬(ls.map (fun l => String.mk (firstWordJs l))).Nodup) :
    getLibsFromDepList ls = Except.error errDuplicate := by
  have hlen : (dedupFirst (ls.map (fun l => String.mk (firstWordJs l)))).length ≠
      (ls.map (fun l => String.mk (firstWordJs l))).length := by
    intro hc
    exact hnd ((dedupFirst_length_iff _).mp hc)
  rw [getLibsFromDepList, if_pos hlen]

/-- C9 (amended): on any input text whose lines are unchanged by whitespace
normalisation, the two pipeline implementations agree: either both raise an
error, under the same condition though not always with the same message, or
both return the same pair of input and output strings. -/
theorem c9_pipelines_agree (text : String)
    (hnorm : ∀ l ∈ splitLines text.data, normalizeLine l = l) :
    (∃ e1 e2, processDepsInText text = Except.error e1 ∧
      getFullDepDataFromText text = Except.error e2) ∨
    (∃ v, processDepsInText text = Except.ok v ∧
      getFullDepDataFromText text = Except.ok v) := by
  have hlist : getDepListFromText text = getDepListingsFromText text :=
    depLists_eq_of_norm text hnorm
  cases hex : getDepListingsFromText text with
  | error e =>
    refine Or.inl ⟨e, e, processDepsInText_extract_err text e hex, ?_⟩
    exact getFullDepDataFromText_extract_err text e (hlist.trans hex)
  | ok ls =>
    have hmem := getDepListings_members text ls hex
    have hspace : ∀ l ∈ ls, ' ' ∈ l := fun l hl => matched_has_space (hmem l hl)
    by_cases hnd : (ls.map (fun l => String.mk (firstWordJs l))).Nodup
    · have hval := (validate_ok_iff ls).mpr hnd
      have hlibs := getLibs_ok_of_nodup ls hnd
      rcases createGo_eq_depDataGo ls [] with ⟨st, hc1, hc2⟩ | ⟨hc1, hc2⟩
      · have hkeys : ∀ p ∈ st, p.1 ∈ ls.map (fun l => String.mk (firstWordJs l)) := by
          refine createGo_keys _ ls [] st hc1 (by simp) ?_
          intro l hl
          rw [← firstWord_eq_headD (hspace l hl)]
          exact List.mem_map_of_mem _ hl
        refine Or.inr ⟨(String.intercalate nlSep (ls.map String.mk),
          depStructureToString (expandDepStructure st)), ?_, ?_⟩
        · exact processDepsInText_ok_of text ls st hex hval hc1
        · have h2 := checkDependencies_ok_of ls _ st hlibs hc2
          have h3 := getFullDepDataFromText_ok_of text ls _ (hlist.trans hex) h2
          rw [h3, fullGraph_eq_expand st _ hkeys]
          rfl
      · refine Or.inl ⟨errSelfDirect, errSelfAlt, ?_, ?_⟩
        · exact processDepsInText_create_err text ls errSelfDirect hex hval hc1
        · exact getFullDepDataFromText_check_err text ls errSelfAlt (hlist.trans hex)
            (checkDependencies_build_err ls _ errSelfAlt hlibs hc2)
    · have hval := (validate_err_iff ls).mpr hnd
      have hlibs := getLibs_err_of_dup ls hnd
      refine Or.inl ⟨errDuplicate, errDuplicate, ?_, ?_⟩
      · exact processDepsInText_validate_err text ls errDuplicate hex hval
      · exact getFullDepDataFromText_check_err text ls errDuplicate (hlist.trans hex)
          (checkDependencies_libs_err ls errDuplicate hlibs)

def lineABC : String := "A depends on B C"

def emptyName : String := ""

/-- C9 (counterexample): on the input with a doubled space inside the
dependency section, the main pipeline normalises the line while the untitled
module keeps it verbatim, so both succeed but return different pairs. -/
theorem c9_counterexample :
    processDepsInText textSpaced = Except.ok (lineABC, lineABC) ∧
    getFullDepDataFromText textSpaced = Except.ok (textSpaced, textSpaced) ∧
    ((lineABC, lineABC) : String × String) ≠ (textSpaced, textSpaced) := by
  refine ⟨?_, ?_, by decide⟩
  · have h := processDepsInText_ok_of textSpaced [lineABC.data] [(nmA, [nmB, nmC])]
      rfl rfl rfl
    have he : expandDepStructure [(nmA, [nmB, nmC])] = [(nmA, [nmB, nmC])] := by
      simp [expandDepStructure, expandGo, lookupA, setAssoc, recAdd, nmA, nmB, nmC]
    rw [h, he]
    rfl
  · have hch := checkDependencies_ok_of [textSpaced.data] [nmA]
      [(nmA, [nmB, emptyName, nmC])] rfl rfl
    have h := getFullDepDataFromText_ok_of textSpaced [textSpaced.data] _ rfl hch
    have hg : getFullDepGraph [(nmA, [nmB, emptyName, nmC])] (some [nmA]) =
        [(nmA, [nmB, emptyName, nmC])] := by
      simp [getFullDepGraph, fullGraphGo, lookupA, setAssoc, recAdd,
        nmA, nmB, nmC, emptyName]
    rw [h, hg]
    rfl

/-- C9 (witness): the agreement theorem applied to a plain one-line input,
whose single line is unchanged by normalisation. -/
theorem c9_witness :
    (∀ l ∈ splitLines textPlain.data, normalizeLine l = l) ∧
    ((∃ e1 e2, processDepsInText textPlain = Except.error e1 ∧
        getFullDepDataFromText textPlain = Except.error e2) ∨
      (∃ v, processDepsInText textPlain = Except.ok v ∧
        getFullDepDataFromText textPlain = Except.ok v)) :=
  ⟨by decide, c9_pipelines_agree textPlain (by decide)⟩
